import Mathlib

/-!
Verification development for the kerosene delivery-planning core.

The TypeScript sources are shallowly embedded as follows.

* JavaScript `number` values are embedded as `ℤ` where the source only ever
  holds integers (counts, day offsets, cycle lengths) and as `ℚ` where the
  source performs division (averages, shares, weights).  The floating-point
  representation of the source is idealized as exact arithmetic.
* Calendar dates: the source passes dates around as ISO `YYYY-MM-DD` strings
  and compares them with JavaScript string comparison, which on 4-digit-year
  ISO strings coincides with chronological order.  The model represents a
  date as a `Ymd` triple of numerals and compares dates chronologically via
  their serial day number (`Ymd.toDays`, days since 0000-01-01, proleptic
  Gregorian calendar, matching what the `Date` arithmetic of the source
  computes).  `addDaysYmd` of the source becomes addition on day numbers
  followed by conversion back to a triple (`ofDaysZ`).
* Strings that are *tested* for the ISO shape (history dates may be
  malformed) are embedded as `List Char` together with the decidable
  shape test `isoTest` mirroring the regex `/^\d{4}-\d{2}-\d{2}$/`.
* The browser runtime is assumed to run in the JST timezone that the
  helpers `jstYmdFromDate`/`parseYmd` of the source are written for, so a
  parse/render round trip keeps the calendar day.
-/

namespace Kerosene

/-! ## Proleptic Gregorian calendar -/

/-- Leap-year predicate of the Gregorian calendar (what JavaScript
`new Date(y, 1, 29)` implements). -/
def isLeap (y : ℕ) : Bool := y % 4 == 0 && (y % 100 != 0 || y % 400 == 0)

/-- Length of month `m` (1-12) in a leap/non-leap year. -/
def monthLen (leap : Bool) (m : ℕ) : ℕ :=
  match m with
  | 1 => 31
  | 2 => if leap then 29 else 28
  | 3 => 31
  | 4 => 30
  | 5 => 31
  | 6 => 30
  | 7 => 31
  | 8 => 31
  | 9 => 30
  | 10 => 31
  | 11 => 30
  | 12 => 31
  | _ => 31

/-- Number of days of month `m` of year `y`; the source computes this as
`new Date(year, month, 0).getDate()`. -/
def daysInMonth (y m : ℕ) : ℕ := monthLen (isLeap y) m

/-- Days of year `y` strictly before month `m` (for `m` in 1..12). -/
def daysBeforeMonth (y m : ℕ) : ℕ :=
  (match m with
   | 1 => 0
   | 2 => 31
   | 3 => 59
   | 4 => 90
   | 5 => 120
   | 6 => 151
   | 7 => 181
   | 8 => 212
   | 9 => 243
   | 10 => 273
   | 11 => 304
   | _ => 334)
  + (if 3 ≤ m ∧ isLeap y then 1 else 0)

def daysInYear (y : ℕ) : ℕ := if isLeap y then 366 else 365

/-- Number of leap years in `[0, y)` (year 0 is a leap year). -/
def leapCount (y : ℕ) : ℕ := (y + 3) / 4 - (y + 99) / 100 + (y + 399) / 400

/-- Serial number of the first day of year `y` (day 0 = 0000-01-01). -/
def daysBeforeYear (y : ℕ) : ℕ := 365 * y + leapCount y

/-- Calendar date as the numeric components of an ISO `YYYY-MM-DD` string. -/
structure Ymd where
  y : ℕ
  m : ℕ
  d : ℕ
  deriving DecidableEq, Repr

/-- Valid calendar date. -/
def Ymd.Valid (x : Ymd) : Prop :=
  1 ≤ x.m ∧ x.m ≤ 12 ∧ 1 ≤ x.d ∧ x.d ≤ daysInMonth x.y x.m

instance (x : Ymd) : Decidable x.Valid := by unfold Ymd.Valid; infer_instance

/-- Serial day number of a date (days since 0000-01-01). -/
def Ymd.toDays (x : Ymd) : ℕ :=
  daysBeforeYear x.y + daysBeforeMonth x.y x.m + (x.d - 1)

/-- Day number as an integer, for arithmetic with possibly negative offsets. -/
def Ymd.toDaysZ (x : Ymd) : ℤ := (x.toDays : ℤ)

/-- Year search for the day-number-to-date conversion.  The fuel is an upper
bound on the number of whole years to peel off; `fuel = n` is always enough
because every year has at least one day. -/
def findYear : ℕ → ℕ → ℕ → ℕ × ℕ
  | 0, y, n => (y, n)
  | fuel + 1, y, n =>
    if n < daysInYear y then (y, n) else findYear fuel (y + 1) (n - daysInYear y)

/-- Month search inside a year: peel whole months off a day offset. -/
def findMonth : ℕ → ℕ → ℕ → ℕ → ℕ × ℕ
  | 0, _, m, r => (m, r + 1)
  | fuel + 1, y, m, r =>
    if r < daysInMonth y m then (m, r + 1)
    else findMonth fuel y (m + 1) (r - daysInMonth y m)

/-- Date of a (nonnegative) serial day number. -/
def ofDaysN (n : ℕ) : Ymd :=
  let p := findYear n 0 n
  let q := findMonth 12 p.1 1 p.2
  ⟨p.1, q.1, q.2⟩

/-- Date of an integer day number; negative day numbers (before 0000-01-01,
outside the model domain) clamp to day 0. -/
def ofDaysZ (z : ℤ) : Ymd := ofDaysN z.toNat

/-- Model of the source's `addDaysYmd` on already-parsed dates: shift the
serial day number. -/
def addDays (x : Ymd) (k : ℤ) : Ymd := ofDaysZ (x.toDaysZ + k)

/-! ### Calendar facts -/

theorem daysInMonth_pos (y m : ℕ) : 1 ≤ daysInMonth y m := by
  unfold daysInMonth monthLen
  split <;> first | omega | (split <;> omega)

theorem daysInMonth_le (y m : ℕ) : daysInMonth y m ≤ 31 := by
  unfold daysInMonth monthLen
  split <;> first | omega | (split <;> omega)

theorem isLeap_iff (y : ℕ) :
    isLeap y = true ↔ (y % 4 = 0 ∧ (y % 100 ≠ 0 ∨ y % 400 = 0)) := by
  simp [isLeap]

theorem daysBeforeYear_succ (y : ℕ) :
    daysBeforeYear (y + 1) = daysBeforeYear y + daysInYear y := by
  unfold daysBeforeYear daysInYear leapCount
  by_cases h : isLeap y = true
  · rw [if_pos h]
    rw [isLeap_iff] at h
    omega
  · rw [if_neg h]
    rw [isLeap_iff] at h
    push_neg at h
    omega

theorem daysBeforeMonth_succ (y m : ℕ) (h1 : 1 ≤ m) (h2 : m ≤ 11) :
    daysBeforeMonth y (m + 1) = daysBeforeMonth y m + daysInMonth y m := by
  interval_cases m <;>
    cases h : isLeap y <;>
      simp [daysBeforeMonth, daysInMonth, monthLen, h]

theorem daysBeforeMonth_last (y : ℕ) :
    daysBeforeMonth y 12 + daysInMonth y 12 = daysInYear y := by
  cases h : isLeap y <;> simp [daysBeforeMonth, daysInMonth, monthLen, daysInYear, h]

theorem daysBeforeMonth_add_lt (y m d : ℕ) (h1 : 1 ≤ m) (h2 : m ≤ 12)
    (hd : d ≤ daysInMonth y m) :
    daysBeforeMonth y m + (d - 1) < daysInYear y := by
  interval_cases m <;>
    cases h : isLeap y <;>
      simp [daysBeforeMonth, daysInMonth, monthLen, daysInYear, h] at hd ⊢ <;>
        omega

theorem findYear_spec : ∀ fuel y n, n ≤ fuel →
    daysBeforeYear (findYear fuel y n).1 + (findYear fuel y n).2 =
      daysBeforeYear y + n ∧
    (findYear fuel y n).2 < daysInYear (findYear fuel y n).1 := by
  intro fuel
  induction fuel with
  | zero =>
    intro y n hn
    have hn0 : n = 0 := by omega
    subst hn0
    simp [findYear, daysInYear]
    split <;> omega
  | succ f ih =>
    intro y n hn
    rw [findYear]
    split
    · exact ⟨rfl, by assumption⟩
    · rename_i hge
      push_neg at hge
      have hd : daysInYear y ≥ 365 := by unfold daysInYear; split <;> omega
      have := ih (y + 1) (n - daysInYear y) (by omega)
      rcases this with ⟨heq, hlt⟩
      refine ⟨?_, hlt⟩
      rw [heq, daysBeforeYear_succ]
      omega

theorem findMonth_spec : ∀ fuel y m r, 1 ≤ m → m ≤ 12 → m + fuel = 13 →
    daysBeforeMonth y m + r < daysInYear y →
    daysBeforeMonth y (findMonth fuel y m r).1 + ((findMonth fuel y m r).2 - 1) =
      daysBeforeMonth y m + r ∧
    1 ≤ (findMonth fuel y m r).2 ∧
    (findMonth fuel y m r).2 ≤ daysInMonth y (findMonth fuel y m r).1 ∧
    1 ≤ (findMonth fuel y m r).1 ∧ (findMonth fuel y m r).1 ≤ 12 := by
  intro fuel
  induction fuel with
  | zero => intro y m r h1 h12 h13 _; omega
  | succ f ih =>
    intro y m r h1 h12 h13 hlt
    rw [findMonth]
    split
    · rename_i hr
      dsimp only
      exact ⟨by omega, by omega, by omega, h1, h12⟩
    · rename_i hr
      push_neg at hr
      have hm11 : m ≤ 11 := by
        by_contra hc
        have hm : m = 12 := by omega
        subst hm
        have := daysBeforeMonth_last y
        omega
      have hstep := daysBeforeMonth_succ y m h1 hm11
      have := ih y (m + 1) (r - daysInMonth y m) (by omega) (by omega) (by omega)
        (by omega)
      rcases this with ⟨heq, hx⟩
      refine ⟨?_, hx⟩
      rw [heq]
      omega

theorem ofDaysN_toDays (n : ℕ) : (ofDaysN n).toDays = n := by
  unfold ofDaysN Ymd.toDays
  have hy := findYear_spec n 0 n (le_refl n)
  rcases hy with ⟨hy1, hy2⟩
  have hm := findMonth_spec 12 (findYear n 0 n).1 1 (findYear n 0 n).2
    (by omega) (by omega) (by omega)
    (by simp [daysBeforeMonth]; exact hy2)
  rcases hm with ⟨hm1, _, _, _, _⟩
  have hdbm1 : daysBeforeMonth (findYear n 0 n).1 1 = 0 := by
    simp [daysBeforeMonth]
  have hdby0 : daysBeforeYear 0 = 0 := by decide
  simp only
  omega

theorem ofDaysN_valid (n : ℕ) : (ofDaysN n).Valid := by
  unfold ofDaysN Ymd.Valid
  have hy := findYear_spec n 0 n (le_refl n)
  rcases hy with ⟨_, hy2⟩
  have hm := findMonth_spec 12 (findYear n 0 n).1 1 (findYear n 0 n).2
    (by omega) (by omega) (by omega)
    (by simp [daysBeforeMonth]; exact hy2)
  rcases hm with ⟨_, h2, h3, h4, h5⟩
  exact ⟨h4, h5, h2, h3⟩

theorem ofDaysZ_toDaysZ (z : ℤ) (hz : 0 ≤ z) : (ofDaysZ z).toDaysZ = z := by
  unfold ofDaysZ Ymd.toDaysZ
  rw [ofDaysN_toDays]
  omega

theorem addDays_toDaysZ (x : Ymd) (k : ℤ) (h : 0 ≤ x.toDaysZ + k) :
    (addDays x k).toDaysZ = x.toDaysZ + k := by
  unfold addDays
  exact ofDaysZ_toDaysZ _ h

theorem toDaysZ_nonneg (x : Ymd) : 0 ≤ x.toDaysZ := by
  unfold Ymd.toDaysZ; positivity

end Kerosene

namespace Kerosene

/-! ## Strings and number parsing/rendering

History dates arrive in the source as arbitrary strings that are tested
against the regex `/^\d{4}-\d{2}-\d{2}$/` and sliced; they are embedded as
`List Char`. -/

/-- JavaScript strings embedded as lists of characters. -/
abbrev Str := List Char

/-- Decimal digit test, the `\d` of the ISO regex. -/
def isDigit (c : Char) : Bool := decide (48 ≤ c.toNat ∧ c.toNat ≤ 57)

/-- Numeric value of a digit character. -/
def digitVal (c : Char) : ℕ := c.toNat - 48

/-- Model of `ISO_YMD.test`, the regex `/^\d{4}-\d{2}-\d{2}$/`. -/
def isoTest (s : Str) : Bool :=
  match s with
  | [y1, y2, y3, y4, s1, m1, m2, s2, d1, d2] =>
    isDigit y1 && isDigit y2 && isDigit y3 && isDigit y4 && (s1 == '-') &&
      isDigit m1 && isDigit m2 && (s2 == '-') && isDigit d1 && isDigit d2
  | _ => false

/-- Value of a digit string, the `Number(...)` conversion applied to slices
of a format-checked date string. -/
def strToNat (s : Str) : ℕ := s.foldl (fun n c => 10 * n + digitVal c) 0

/-- Model of `Number(d.slice(0, 4))` on a format-checked date string. -/
def yearOf (s : Str) : ℕ := strToNat (s.take 4)

/-- Model of `Number(d.slice(5, 7))` on a format-checked date string. -/
def monthOf (s : Str) : ℕ := strToNat ((s.drop 5).take 2)

/-- Model of `Number(d.slice(8, 10))` on a format-checked date string. -/
def dayOf (s : Str) : ℕ := strToNat ((s.drop 8).take 2)

/-- Digit expansion with explicit fuel (any fuel above the digit count gives
the full expansion; `natToChars` supplies enough). -/
def natToCharsAux : ℕ → ℕ → Str
  | 0, _ => []
  | fuel + 1, n =>
    if n < 10 then [Char.ofNat (48 + n)]
    else natToCharsAux fuel (n / 10) ++ [Char.ofNat (48 + n % 10)]

/-- Decimal rendering of a natural number, the `String(n)` conversion
(no leading zeros). -/
def natToChars (n : ℕ) : Str := natToCharsAux (n + 1) n

/-- Decimal rendering of an integer, the `String(z)` conversion. -/
def intToChars (z : ℤ) : Str :=
  if z < 0 then '-' :: natToChars z.natAbs else natToChars z.toNat

/-- Left-pad a rendering with zeros, the `padStart(k, '0')` of the source. -/
def padZeros (k : ℕ) (s : Str) : Str := List.replicate (k - s.length) '0' ++ s

/-- Render a date triple the way `jstYmdFromDate` (via `toISOString`) and
the template `${year}-${mm}-${dd}` do for years up to 9999. -/
def renderYmd (x : Ymd) : Str :=
  padZeros 4 (natToChars x.y) ++ '-' :: padZeros 2 (natToChars x.m) ++
    '-' :: padZeros 2 (natToChars x.d)

/-- Model of `parseYmd` (`new Date(`YYYY-MM-DDT00:00:00+09:00`)`): a string
parses to a date exactly when it has the ISO shape and denotes a real
calendar day; otherwise the JavaScript value is an Invalid Date, which makes
the subsequent `toISOString` rendering throw a `RangeError`. -/
def parseYmdStr (s : Str) : Option Ymd :=
  if isoTest s then
    let x : Ymd := ⟨yearOf s, monthOf s, dayOf s⟩
    if x.Valid then some x else none
  else none

/-- JavaScript string comparison (`<` on strings, lexicographic by code
unit). -/
def strLtB : Str → Str → Bool
  | [], [] => false
  | [], _ :: _ => true
  | _ :: _, [] => false
  | a :: as, b :: bs =>
    if a.toNat < b.toNat then true
    else if b.toNat < a.toNat then false
    else strLtB as bs

/-- Model of `maxYmd(a, b) = a >= b ? a : b` on strings. -/
def maxYmdStr (a b : Str) : Str := if strLtB a b then b else a

/-! ## JavaScript numeric helpers -/

/-- JavaScript `Math.round` (round half toward positive infinity) on the
exact-rational embedding of `number`. -/
def jsRound (x : ℚ) : ℤ := ⌊x + 1 / 2⌋

theorem jsRound_le (x : ℚ) : (jsRound x : ℚ) ≤ x + 1 / 2 := Int.floor_le _

theorem jsRound_gt (x : ℚ) : x - 1 / 2 < (jsRound x : ℚ) := by
  have := Int.lt_floor_add_one (x + 1 / 2)
  unfold jsRound
  linarith

theorem jsRound_nonneg (x : ℚ) (hx : 0 ≤ x) : 0 ≤ jsRound x := by
  have h1 : (0 : ℚ) - 1 / 2 < (jsRound x : ℚ) :=
    lt_of_le_of_lt (by linarith) (jsRound_gt x)
  have h2 : (-1 : ℤ) < jsRound x := by exact_mod_cast (by linarith : (-1 : ℚ) < (jsRound x : ℚ))
  omega

end Kerosene

namespace Kerosene

/-! ## src/logic/forecast.ts — pure forecast pipeline -/

/-- String order used for the `.sort()` calls on ISO date strings. -/
def strLeP (a b : Str) : Prop := strLtB b a = false

instance : DecidableRel strLeP := fun a b => by unfold strLeP; infer_instance

/-- Append a date under its year key, `byYear[y].push(d)` (creating the
key when absent). -/
def pushEntry : List (ℕ × List Str) → ℕ → Str → List (ℕ × List Str)
  | [], y, d => [(y, [d])]
  | (k, ds) :: t, y, d =>
    if k = y then (k, ds ++ [d]) :: t else (k, ds) :: pushEntry t y d

/-- Loop body of `splitHistoryByYear`: skip malformed or out-of-window
dates, bucket the rest under their year. -/
def keepDate (baseYear minYear : ℤ) (acc : List (ℕ × List Str)) (d : Str) :
    List (ℕ × List Str) :=
  if !isoTest d then acc
  else
    let y := yearOf d
    if (y : ℤ) > baseYear then acc
    else if (y : ℤ) < minYear then acc
    else pushEntry acc y d

/-- Model of `splitHistoryByYear`: bucket format-valid history dates by the
numeric value of their year slice, keeping only years in
`[baseYear - maxYearsBack, baseYear]`, each bucket sorted.  The record
`Record<number, string[]>` becomes an association list with unique keys. -/
def splitHistoryByYear (historyDates : List Str) (baseYear maxYearsBack : ℤ) :
    List (ℕ × List Str) :=
  let minYear : ℤ := baseYear - maxYearsBack
  let byYear := historyDates.foldl (keepDate baseYear minYear) []
  byYear.map (fun p => (p.1, List.insertionSort strLeP p.2))

/-- Derived per-year delivery count. -/
structure YearlyCount where
  year : ℤ
  count : ℕ
  deriving DecidableEq, Repr

/-- Model of `calcYearlyCounts`: one `{year, count}` per bucket, sorted by
year ascending. -/
def calcYearlyCounts (byYear : List (ℕ × List Str)) : List YearlyCount :=
  List.insertionSort (fun a b : YearlyCount => a.year ≤ b.year)
    (byYear.map fun p => ⟨(p.1 : ℤ), p.2.length⟩)

/-- Model of `decideTargetYearCount` (YearlyTargetEstimator).  The float
literals 0.85 and 1.3 are embedded as the exact rationals they denote. -/
def decideTargetYearCount (yearlyCounts : List YearlyCount) (baseYear : ℤ) : ℤ :=
  if yearlyCounts = [] then 0
  else
    let lastYearCount : ℕ :=
      ((yearlyCounts.find? fun s => decide (s.year = baseYear)).map
        (fun s => s.count)).getD 0
    let avg : ℚ :=
      (yearlyCounts.map fun s => (s.count : ℚ)).sum / (yearlyCounts.length : ℚ)
    if lastYearCount = 0 then jsRound avg
    else
      let target := jsRound avg
      let minAllowed : ℤ := ⌊(lastYearCount : ℚ) * (85 / 100)⌋
      let maxAllowed : ℤ := ⌈(lastYearCount : ℚ) * (13 / 10)⌉
      let t1 := if target < minAllowed then minAllowed else target
      let t2 := if t1 > maxAllowed then maxAllowed else t1
      if t2 ≤ 0 then (lastYearCount : ℤ) else t2

/-- Dates of a bucket falling in calendar month `i + 1` (the increments
`targetArr[m - 1] += 1` of the source). -/
def monthHits (dates : List Str) (i : ℕ) : ℕ :=
  (dates.filter fun d => isoTest d && monthOf d == i + 1).length

/-- Model of `calcMonthlyWeights` (MonthlyDistributor weights): recency-
weighted month-of-year counts, normalized to shares; uniform `1/12` when
there is no seasonal signal. -/
def calcMonthlyWeights (byYear : List (ℕ × List Str)) (baseYear : ℤ)
    (wLast wPast : ℚ) : List ℚ :=
  let lastHits : ℕ → ℕ := fun i =>
    ((byYear.filter fun p => decide ((p.1 : ℤ) = baseYear)).map
      fun p => monthHits p.2 i).sum
  let pastHits : ℕ → ℕ := fun i =>
    ((byYear.filter fun p => decide ((p.1 : ℤ) ≠ baseYear)).map
      fun p => monthHits p.2 i).sum
  let weights : List ℚ :=
    (List.range 12).map fun i => wLast * lastHits i + wPast * pastHits i
  let s := weights.sum
  if s ≤ 0 then List.replicate 12 (1 / 12)
  else weights.map fun w => w / s

/-- Remainder-redistribution loop of `makeMonthlyTargets`: cycle through
months (at most `limit = 12 * 3` iterations), incrementing while the
remainder is positive and decrementing nonzero months while it is
negative. -/
def redistribute (monthly : List ℤ) (diff : ℤ) (idx : ℕ) : List ℤ :=
  if diff ≠ 0 ∧ idx < 36 then
    let i := idx % 12
    if 0 < diff then
      redistribute (monthly.set i (monthly.getD i 0 + 1)) (diff - 1) (idx + 1)
    else if diff < 0 ∧ 0 < monthly.getD i 0 then
      redistribute (monthly.set i (monthly.getD i 0 - 1)) (diff + 1) (idx + 1)
    else redistribute monthly diff (idx + 1)
  else monthly
  termination_by 36 - idx
  decreasing_by all_goals omega

/-- Model of `makeMonthlyTargets` (MonthlyDistributor): per-month rounded
allocation of the yearly target, fixed up by `redistribute`. -/
def makeMonthlyTargets (targetYearCount : ℤ) (shares : List ℚ) : List ℤ :=
  if targetYearCount ≤ 0 then List.replicate 12 0
  else
    let raw := shares.map fun s => s * (targetYearCount : ℚ)
    let monthly := raw.map jsRound
    redistribute monthly (targetYearCount - monthly.sum) 0

/-- Model of `generateDatesForMonth` (DateSpacer): `count` evenly spread
days of the given month, clamped into `[1, daysInMonth]`. -/
def generateDatesForMonth (year month : ℕ) (count : ℤ) : List Ymd :=
  if count ≤ 0 then []
  else
    let dim : ℕ := daysInMonth year month
    let step : ℚ := (dim : ℚ) / (count : ℚ)
    (List.range count.toNat).map fun (i : ℕ) =>
      let day := jsRound ((i : ℚ) * step + step / 2)
      ⟨year, month, (min (max day 1) (dim : ℤ)).toNat⟩

/-- C7: for every year and calendar month and every integer count `c`,
`generateDatesForMonth` returns the empty list when `c ≤ 0`, and otherwise
returns exactly `c` dates of that month, each with day-of-month in
`[1, daysInMonth year month]`. -/
theorem claim_C7_dateSpacer (year month : ℕ) (count : ℤ)
    (h1 : 1 ≤ month) (h2 : month ≤ 12) :
    (count ≤ 0 → generateDatesForMonth year month count = []) ∧
    (0 < count →
      ((generateDatesForMonth year month count).length : ℤ) = count ∧
      ∀ x ∈ generateDatesForMonth year month count,
        x.y = year ∧ x.m = month ∧ 1 ≤ x.d ∧ x.d ≤ daysInMonth year month) := by
  have clamp1 : ∀ a b : ℤ, 1 ≤ b → 1 ≤ (min (max a 1) b).toNat := by
    intro a b hb
    rcases le_total a 1 with h | h <;> rcases le_total a b with h2 | h2 <;>
      simp [min_def, max_def] <;> omega
  have clamp2 : ∀ a b : ℤ, (min (max a 1) b).toNat ≤ b.toNat := by
    intro a b
    rcases le_total (max a 1) b with h | h <;> simp [min_def] <;> omega
  constructor
  · intro hc
    unfold generateDatesForMonth
    rw [if_pos hc]
  · intro hc
    have hdim := daysInMonth_pos year month
    unfold generateDatesForMonth
    rw [if_neg (by omega)]
    refine ⟨?_, ?_⟩
    · show (((List.range count.toNat).map _).length : ℤ) = count
      rw [List.length_map, List.length_range]
      omega
    · intro x hx
      simp only [List.mem_map, List.mem_range] at hx
      obtain ⟨i, _, rfl⟩ := hx
      refine ⟨rfl, rfl, ?_, ?_⟩
      · exact clamp1 _ _ (by exact_mod_cast hdim)
      · have := clamp2 (jsRound ((i : ℚ) *
            ((daysInMonth year month : ℚ) / (count : ℚ)) +
            (daysInMonth year month : ℚ) / (count : ℚ) / 2))
            (daysInMonth year month : ℤ)
        simpa using this

/-- Witness for C7 at year 2025, month 1, count 3. -/
theorem claim_C7_dateSpacer_witness :
    ((3 : ℤ) ≤ 0 → generateDatesForMonth 2025 1 3 = []) ∧
    (0 < (3 : ℤ) →
      ((generateDatesForMonth 2025 1 3).length : ℤ) = 3 ∧
      ∀ x ∈ generateDatesForMonth 2025 1 3,
        x.y = 2025 ∧ x.m = 1 ∧ 1 ≤ x.d ∧ x.d ≤ daysInMonth 2025 1) :=
  claim_C7_dateSpacer 2025 1 3 (by norm_num) (by norm_num)

end Kerosene

namespace Kerosene

/-! ### List helpers for the redistribution loop -/

theorem sum_set_add : ∀ (l : List ℤ) (i : ℕ) (c : ℤ), i < l.length →
    (l.set i (l.getD i 0 + c)).sum = l.sum + c := by
  intro l
  induction l with
  | nil => intro i c h; simp at h
  | cons x t ih =>
    intro i c h
    cases i with
    | zero =>
      simp only [List.set, List.getD_cons_zero, List.sum_cons]
      ring
    | succ j =>
      have ih2 := ih j c (by simpa using h)
      simp only [List.set, List.getD_cons_succ, List.sum_cons, ih2]
      ring

theorem drop_cons_getD : ∀ (l : List ℤ) (i : ℕ), i < l.length →
    l.drop i = l.getD i 0 :: l.drop (i + 1) := by
  intro l
  induction l with
  | nil => intro i h; simp at h
  | cons x t ih =>
    intro i h
    cases i with
    | zero => simp [List.getD]
    | succ j =>
      have := ih j (by simpa using h)
      simpa [List.getD_cons_succ] using this

theorem drop_succ_set : ∀ (l : List ℤ) (i : ℕ) (v : ℤ),
    (l.set i v).drop (i + 1) = l.drop (i + 1) := by
  intro l
  induction l with
  | nil => intro i v; simp
  | cons x t ih =>
    intro i v
    cases i with
    | zero => simp
    | succ j => simpa using ih j v

/-- Count of strictly positive entries, the months eligible for a
decrement. -/
def posCount (l : List ℤ) : ℕ := l.countP fun x => decide (0 < x)

theorem redistribute_sum_pos : ∀ (gas : ℕ) (monthly : List ℤ) (diff : ℤ) (idx : ℕ),
    monthly.length = 12 → 0 ≤ diff → diff.toNat + idx ≤ 36 → diff.toNat ≤ gas →
    (redistribute monthly diff idx).sum = monthly.sum + diff := by
  intro gas
  induction gas with
  | zero =>
    intro monthly diff idx hlen hnn hbound hgas
    have hd : diff = 0 := by omega
    subst hd
    rw [redistribute]
    simp
  | succ g ih =>
    intro monthly diff idx hlen hnn hbound hgas
    by_cases hd : diff = 0
    · subst hd; rw [redistribute]; simp
    · have hpos : 0 < diff := by omega
      rw [redistribute]
      rw [if_pos ⟨hd, by omega⟩, if_pos hpos]
      have hidx : idx % 12 < monthly.length := by rw [hlen]; exact Nat.mod_lt _ (by omega)
      have hset := sum_set_add monthly (idx % 12) 1 hidx
      have := ih (monthly.set (idx % 12) (monthly.getD (idx % 12) 0 + 1))
        (diff - 1) (idx + 1) (by simpa using hlen) (by omega) (by omega) (by omega)
      rw [this, hset]
      ring

theorem redistribute_sum_neg : ∀ (gas : ℕ) (monthly : List ℤ) (diff : ℤ) (idx : ℕ),
    monthly.length = 12 → diff ≤ 0 → idx ≤ 12 → gas = 12 - idx →
    (-diff).toNat ≤ posCount (monthly.drop idx) →
    (redistribute monthly diff idx).sum = monthly.sum + diff := by
  intro gas
  induction gas with
  | zero =>
    intro monthly diff idx hlen hnp hidx hgas hcount
    have h12 : idx = 12 := by omega
    subst h12
    have : monthly.drop 12 = [] := List.drop_eq_nil_of_le (by omega)
    rw [this] at hcount
    simp [posCount] at hcount
    have hd : diff = 0 := by omega
    subst hd
    rw [redistribute]
    simp
  | succ g ih =>
    intro monthly diff idx hlen hnp hidx hgas hcount
    by_cases hd : diff = 0
    · subst hd; rw [redistribute]; simp
    · have hneg : diff < 0 := by omega
      have hidx12 : idx < 12 := by omega
      have hmod : idx % 12 = idx := Nat.mod_eq_of_lt hidx12
      have hidxlen : idx < monthly.length := by omega
      have hdropeq := drop_cons_getD monthly idx hidxlen
      rw [redistribute, if_pos ⟨hd, by omega⟩, if_neg (by omega)]
      rw [hmod]
      by_cases hp : 0 < monthly.getD idx 0
      · rw [if_pos ⟨hneg, hp⟩]
        have hset := sum_set_add monthly idx (-1) hidxlen
        have hdrops := drop_succ_set monthly idx (monthly.getD idx 0 + -1)
        have hsplit : posCount (monthly.drop idx) =
            posCount (monthly.drop (idx + 1)) + 1 := by
          rw [hdropeq]
          simp only [posCount, List.countP_cons, decide_eq_true hp, if_true]
        have hcount2 : ((-(diff + 1))).toNat ≤
            posCount ((monthly.set idx (monthly.getD idx 0 + -1)).drop (idx + 1)) := by
          rw [hdrops]
          omega
        have := ih (monthly.set idx (monthly.getD idx 0 + -1)) (diff + 1) (idx + 1)
          (by simpa using hlen) (by omega) (by omega) (by omega) hcount2
        have hgd : monthly.set idx (monthly.getD idx 0 - 1) =
            monthly.set idx (monthly.getD idx 0 + -1) := by ring_nf
        rw [hgd, this, hset]
        ring
      · rw [if_neg (by tauto)]
        have hsplit : posCount (monthly.drop idx) =
            posCount (monthly.drop (idx + 1)) := by
          rw [hdropeq]
          simp only [posCount, List.countP_cons, decide_eq_false hp,
            Bool.false_eq_true, if_false]
          omega
        have hcount2 : (-diff).toNat ≤ posCount (monthly.drop (idx + 1)) := by
          omega
        exact ih monthly diff (idx + 1) hlen hnp (by omega) (by omega) hcount2

/-! ### Rounding aggregate bounds -/

theorem sum_jsRound_le (l : List ℚ) :
    ((l.map jsRound).sum : ℚ) ≤ l.sum + l.length * (1 / 2) := by
  induction l with
  | nil => simp
  | cons x t ih =>
    have := jsRound_le x
    simp only [List.map_cons, List.sum_cons, List.length_cons]
    push_cast
    push_cast at ih
    linarith

theorem sum_jsRound_ge (l : List ℚ) :
    l.sum - l.length * (1 / 2) ≤ ((l.map jsRound).sum : ℚ) := by
  induction l with
  | nil => simp
  | cons x t ih =>
    have := le_of_lt (jsRound_gt x)
    simp only [List.map_cons, List.sum_cons, List.length_cons]
    push_cast
    push_cast at ih
    linarith

theorem sum_jsRound_sub_le_posCount (T : ℚ) (hT : 0 ≤ T) :
    ∀ l : List ℚ, (∀ s ∈ l, 0 ≤ s) →
    ((l.map fun s => jsRound (s * T)).sum : ℚ) - (l.map fun s => s * T).sum ≤
      (posCount (l.map fun s => jsRound (s * T)) : ℚ) * (1 / 2) := by
  intro l
  induction l with
  | nil => simp
  | cons s t ih =>
    intro hnn
    have hs : 0 ≤ s := hnn s (by simp)
    have iht := ih (fun x hx => hnn x (by simp [hx]))
    simp only [List.map_cons, List.sum_cons, posCount, List.countP_cons] at iht ⊢
    by_cases hp : 0 < jsRound (s * T)
    · have hle : (jsRound (s * T) : ℚ) ≤ s * T + 1 / 2 := jsRound_le _
      simp only [decide_eq_true hp, if_true]
      push_cast
      push_cast at iht
      linarith
    · have hle : (jsRound (s * T) : ℚ) ≤ 0 := by
        have : jsRound (s * T) ≤ 0 := by omega
        exact_mod_cast this
      have hst : 0 ≤ s * T := mul_nonneg hs hT
      simp only [decide_eq_false hp, Bool.false_eq_true, if_false]
      push_cast
      push_cast at iht
      linarith

/-- C2: for every nonnegative integer yearly target and every nonnegative
12-element share vector summing exactly to 1, the monthly counts returned by
`makeMonthlyTargets` (including the 36-iteration redistribution loop) sum
exactly to the target. -/
theorem claim_C2_monthlyTargetsSum (T : ℤ) (shares : List ℚ)
    (hT : 0 ≤ T) (hlen : shares.length = 12)
    (hnn : ∀ s ∈ shares, 0 ≤ s) (hsum : shares.sum = 1) :
    (makeMonthlyTargets T shares).sum = T := by
  unfold makeMonthlyTargets
  by_cases hT0 : T ≤ 0
  · rw [if_pos hT0]
    have : T = 0 := by omega
    simp [this]
  · rw [if_neg hT0]
    have hTpos : 0 < T := by omega
    have hTQ : (0 : ℚ) ≤ (T : ℚ) := by positivity
    have hmul : ∀ (l : List ℚ) (c : ℚ), (l.map fun s => s * c).sum = l.sum * c := by
      intro l c
      induction l with
      | nil => simp
      | cons x t ih => simp [ih]; ring
    have hraw : (shares.map fun s => s * (T : ℚ)).sum = (T : ℚ) := by
      rw [hmul, hsum, one_mul]
    have hcomp : (shares.map fun s => s * (T : ℚ)).map jsRound =
        shares.map fun s => jsRound (s * (T : ℚ)) := by
      rw [List.map_map]; rfl
    set M := (shares.map fun s => s * (T : ℚ)).map jsRound with hM
    have hlenM : M.length = 12 := by
      rw [hM]; simp [hlen]
    have hub : (M.sum : ℚ) ≤ (T : ℚ) + 6 := by
      have := sum_jsRound_le (shares.map fun s => s * (T : ℚ))
      rw [hraw] at this
      simp only [List.length_map, hlen] at this
      rw [hM]
      linarith
    have hlb : (T : ℚ) - 6 ≤ (M.sum : ℚ) := by
      have := sum_jsRound_ge (shares.map fun s => s * (T : ℚ))
      rw [hraw] at this
      simp only [List.length_map, hlen] at this
      rw [hM]
      linarith
    have hubZ : M.sum ≤ T + 6 := by exact_mod_cast hub
    have hlbZ : T - 6 ≤ M.sum := by exact_mod_cast hlb
    by_cases hdiff : 0 ≤ T - M.sum
    · have := redistribute_sum_pos (T - M.sum).toNat M (T - M.sum) 0
        hlenM hdiff (by omega) (by omega)
      rw [this]
      ring
    · have hneg : T - M.sum < 0 := by omega
      have hposc : (M.sum : ℚ) - (T : ℚ) ≤ (posCount M : ℚ) * (1 / 2) := by
        have := sum_jsRound_sub_le_posCount (T : ℚ) hTQ shares hnn
        rw [hraw] at this
        rw [hcomp]
        exact this
      have hposcZ : (M.sum - T) * 2 ≤ (posCount M : ℤ) := by
        have h2 : ((M.sum - T : ℤ) : ℚ) * 2 ≤ ((posCount M : ℤ) : ℚ) := by
          push_cast
          push_cast at hposc
          linarith
        exact_mod_cast h2
      have := redistribute_sum_neg 12 M (T - M.sum) 0 hlenM (by omega) (by omega)
        (by omega) (by simpa using (by omega : (-(T - M.sum)).toNat ≤ posCount M))
      rw [this]
      ring

/-- Witness for C2: target 3 with shares concentrated on the first quarter. -/
theorem claim_C2_monthlyTargetsSum_witness :
    (makeMonthlyTargets 3 [1/3, 1/3, 1/3, 0, 0, 0, 0, 0, 0, 0, 0, 0]).sum = 3 :=
  claim_C2_monthlyTargetsSum 3 [1/3, 1/3, 1/3, 0, 0, 0, 0, 0, 0, 0, 0, 0]
    (by norm_num) (by decide)
    (by intro s hs; fin_cases hs <;> norm_num) (by norm_num)

end Kerosene

namespace Kerosene

/-- C4: the yearly target estimator always returns a nonnegative count, and
whenever the yearly-count list is nonempty and the base-year entry found has
count `N > 0`, the result lies in `[⌊0.85 N⌋, ⌈1.3 N⌉]` or equals `N`
exactly (zero-clamp fallback), and in those cases is strictly positive. -/
theorem claim_C4_yearlyTargetBounds :
    (∀ (yc : List YearlyCount) (baseYear : ℤ),
      0 ≤ decideTargetYearCount yc baseYear) ∧
    (∀ (yc : List YearlyCount) (baseYear : ℤ) (st : YearlyCount),
      yc ≠ [] →
      yc.find? (fun s => decide (s.year = baseYear)) = some st →
      0 < st.count →
      ((⌊(st.count : ℚ) * (85 / 100)⌋ ≤ decideTargetYearCount yc baseYear ∧
          decideTargetYearCount yc baseYear ≤ ⌈(st.count : ℚ) * (13 / 10)⌉) ∨
        decideTargetYearCount yc baseYear = st.count) ∧
      0 < decideTargetYearCount yc baseYear) := by
  have havg : ∀ (yc : List YearlyCount),
      0 ≤ (yc.map fun s => (s.count : ℚ)).sum / (yc.length : ℚ) := by
    intro yc
    apply div_nonneg
    · apply List.sum_nonneg
      intro x hx
      simp only [List.mem_map] at hx
      obtain ⟨s, _, rfl⟩ := hx
      positivity
    · positivity
  constructor
  · intro yc baseYear
    simp only [decideTargetYearCount]
    split
    · omega
    · split
      · exact jsRound_nonneg _ (havg yc)
      · split_ifs <;> omega
  · intro yc baseYear st hne hfind hcount
    simp only [decideTargetYearCount]
    rw [if_neg hne, hfind]
    have hred : (Option.map (fun s => s.count) (some st)).getD 0 = st.count := rfl
    rw [hred]
    rw [if_neg (by omega)]
    have hNpos : (0 : ℤ) < (st.count : ℤ) := by exact_mod_cast hcount
    have hNQ : (0 : ℚ) ≤ (st.count : ℚ) := by positivity
    have hfl : ⌊(st.count : ℚ) * (85 / 100)⌋ ≤ (st.count : ℤ) := by
      calc ⌊(st.count : ℚ) * (85 / 100)⌋ ≤ ⌊(st.count : ℚ)⌋ :=
            Int.floor_mono (by linarith)
        _ = (st.count : ℤ) := Int.floor_natCast _
    have hce : (st.count : ℤ) ≤ ⌈(st.count : ℚ) * (13 / 10)⌉ := by
      calc (st.count : ℤ) = ⌈(st.count : ℚ)⌉ := (Int.ceil_natCast _).symm
        _ ≤ ⌈(st.count : ℚ) * (13 / 10)⌉ := Int.ceil_mono (by linarith)
    have hflnn : 0 ≤ ⌊(st.count : ℚ) * (85 / 100)⌋ :=
      Int.floor_nonneg.mpr (by positivity)
    split_ifs <;>
      first
        | exact ⟨Or.inr rfl, hNpos⟩
        | exact ⟨Or.inl ⟨by omega, by omega⟩, by omega⟩

/-- Witness for C4 at the one-entry history `[{year := 2024, count := 3}]`. -/
theorem claim_C4_yearlyTargetBounds_witness :
    ((⌊((3 : ℕ) : ℚ) * (85 / 100)⌋ ≤
        decideTargetYearCount [⟨2024, 3⟩] 2024 ∧
      decideTargetYearCount [⟨2024, 3⟩] 2024 ≤ ⌈((3 : ℕ) : ℚ) * (13 / 10)⌉) ∨
      decideTargetYearCount [⟨2024, 3⟩] 2024 = (3 : ℕ)) ∧
    0 < decideTargetYearCount [⟨2024, 3⟩] 2024 :=
  claim_C4_yearlyTargetBounds.2 [⟨2024, 3⟩] 2024 ⟨2024, 3⟩
    (by simp) (by simp [List.find?]) (by norm_num)

end Kerosene

namespace Kerosene

/-! ## buildPlanFromHistory (HorizonAssembler + orchestration)

The source returns a `PlanResult` or throws; it can also fail to terminate
when the horizon end leaves the ISO `YYYY-MM-DD` range (the `Date`
comparisons in the month loop are then always false).  The embedding makes
all three outcomes explicit. -/

/-- Outcome of running a piece of JavaScript: normal return, a thrown
error, or divergence. -/
inductive JsOutcome (α : Type) where
  | ok : α → JsOutcome α
  | err : JsOutcome α
  | hang : JsOutcome α
  deriving DecidableEq, Repr

def isOk {α : Type} : JsOutcome α → Bool
  | .ok _ => true
  | _ => false

structure PlanResult where
  targetYearCount : ℤ
  monthlyCounts : List ℤ
  plannedDates : List ℤ
  deriving DecidableEq, Repr

/-- Largest serial day number whose ISO rendering still has a 4-digit
year (9999-12-31). -/
def maxDN : ℤ := Ymd.toDaysZ ⟨9999, 12, 31⟩

/-- Month successor used by the plan-assembly loop. -/
def nextMonth (y m : ℕ) : ℕ × ℕ := if m = 12 then (y + 1, 1) else (y, m + 1)

theorem toDays_month_step (y m : ℕ) (h1 : 1 ≤ m) (h2 : m ≤ 12) :
    Ymd.toDays ⟨(nextMonth y m).1, (nextMonth y m).2, 1⟩ =
      Ymd.toDays ⟨y, m, 1⟩ + daysInMonth y m := by
  unfold nextMonth
  by_cases hm : m = 12
  · subst hm
    simp only [if_pos rfl]
    show daysBeforeYear (y + 1) + daysBeforeMonth (y + 1) 1 + (1 - 1) = _
    have h12 := daysBeforeMonth_last y
    have hsucc := daysBeforeYear_succ y
    simp only [Ymd.toDays]
    have : daysBeforeMonth (y + 1) 1 = 0 := by simp [daysBeforeMonth]
    omega
  · rw [if_neg hm]
    have := daysBeforeMonth_succ y m h1 (by omega)
    simp only [Ymd.toDays]
    omega

theorem toDaysZ_month_step (y m : ℕ) (h1 : 1 ≤ m) (h2 : m ≤ 12) :
    Ymd.toDaysZ ⟨(nextMonth y m).1, (nextMonth y m).2, 1⟩ =
      Ymd.toDaysZ ⟨y, m, 1⟩ + (daysInMonth y m : ℤ) := by
  unfold Ymd.toDaysZ
  have := toDays_month_step y m h1 h2
  omega

theorem nextMonth_bounds (y m : ℕ) (h1 : 1 ≤ m) (h2 : m ≤ 12) :
    1 ≤ (nextMonth y m).2 ∧ (nextMonth y m).2 ≤ 12 := by
  unfold nextMonth
  split <;> simp <;> omega

/-- Months visited by the `while (true)` loop of `buildPlanFromHistory`:
starting at `(y, m)`, every month whose first day is not after the horizon
end.  (The loop of the source does not test the month bounds; the guard
`1 ≤ m ≤ 12` holds on every call and only serves termination.) -/
def monthWalk (endDn : ℤ) (y m : ℕ) : List (ℕ × ℕ) :=
  if h : 1 ≤ m ∧ m ≤ 12 ∧ Ymd.toDaysZ ⟨y, m, 1⟩ ≤ endDn then
    (y, m) :: monthWalk endDn (nextMonth y m).1 (nextMonth y m).2
  else []
  termination_by (endDn + 1 - Ymd.toDaysZ ⟨y, m, 1⟩).toNat
  decreasing_by
    have hstep := toDaysZ_month_step y m h.1 h.2.1
    have hpos := daysInMonth_pos y m
    omega

/-- Start string actually used: a format-valid `startFromYmd`, otherwise
the default `${baseYear + 1}-01-01`. -/
def resolvedStart (baseYear : ℤ) (startFromYmd : Option Str) : Str :=
  let defaultStart : Str :=
    intToChars (baseYear + 1) ++ ('-' :: '0' :: '1' :: '-' :: '0' :: '1' :: [])
  match startFromYmd with
  | some s => if isoTest s then s else defaultStart
  | none => defaultStart

/-- Model of `buildPlanFromHistory`: the full forecast pipeline from raw
history strings to the planned dates (as serial day numbers) in
`[startYmd, startYmd + horizonDays]`.  `err` marks the `throw` statements
plus the `RangeError` thrown by `addDaysYmd` on an unparsable start date;
`hang` marks the nonterminating month loop that results when the horizon
end falls outside years 0000-9999. -/
def buildPlanFromHistory (historyDates : List Str) (baseYear : ℤ)
    (startFromYmd : Option Str) (horizonDays : ℤ) : JsOutcome PlanResult :=
  if historyDates = [] then .err
  else
    let byYear := splitHistoryByYear historyDates baseYear 3
    let yearlyCounts := calcYearlyCounts byYear
    if yearlyCounts = [] then .err
    else
      match yearlyCounts.find? (fun s => decide (s.year = baseYear)) with
      | none => .err
      | some lastYearStat =>
        if lastYearStat.count = 0 then .err
        else
          let targetYearCount := decideTargetYearCount yearlyCounts baseYear
          let shares := calcMonthlyWeights byYear baseYear (7 / 10) (3 / 10)
          let monthlyCounts := makeMonthlyTargets targetYearCount shares
          match parseYmdStr (resolvedStart baseYear startFromYmd) with
          | none => .err
          | some startD =>
            let startDn := startD.toDaysZ
            let endDn := startDn + horizonDays
            if endDn < 0 ∨ maxDN < endDn then .hang
            else
              let months := monthWalk endDn startD.y startD.m
              let allDates := months.flatMap fun p =>
                generateDatesForMonth p.1 p.2 (monthlyCounts.getD (p.2 - 1) 0)
              let plannedDates := List.insertionSort (· ≤ ·)
                (((allDates.map Ymd.toDaysZ).filter fun d =>
                  decide (startDn ≤ d ∧ d ≤ endDn)))
              .ok ⟨targetYearCount, monthlyCounts, plannedDates⟩

end Kerosene

namespace Kerosene

/-! ### Claim C3 — order of `plannedDates` -/

/-- History date `2024-03-05` used for concrete evaluation. -/
def wDate : Str := ['2', '0', '2', '4', '-', '0', '3', '-', '0', '5']

/-- History date `2024-01-10` used for concrete evaluation. -/
def cexDate : Str := ['2', '0', '2', '4', '-', '0', '1', '-', '1', '0']

/-- Start date `2025-01-01` used for concrete evaluation. -/
def exStart : Str := ['2', '0', '2', '5', '-', '0', '1', '-', '0', '1']

/-- Planned dates produced by the run with 32 base-year deliveries all on
2024-01-10: serial day 739617 (2025-01-01) appears twice. -/
def cexPlanned : List ℤ :=
  [739617, 739617, 739618, 739619, 739620, 739621, 739622, 739623, 739624,
   739625, 739626, 739627, 739628, 739629, 739630, 739631, 739632, 739633,
   739634, 739635, 739636, 739637, 739638, 739639, 739640, 739641, 739642,
   739643, 739644, 739645, 739646, 739647]

/-- Counterexample to C3 as stated: with 32 base-year deliveries recorded on
2024-01-10 (so January receives a 32-count allocation into 31 days),
`buildPlanFromHistory` succeeds but `plannedDates` lists day 739617
(2025-01-01) twice — neither duplicate-free nor strictly ascending. -/
theorem claim_C3_strictAscending_counterexample :
    buildPlanFromHistory (List.replicate 32 cexDate) 2024 (some exStart) 40 =
      JsOutcome.ok ⟨32, [32, 0, 0, 0, 0, 0, 0, 0, 0, 0, 0, 0], cexPlanned⟩ ∧
    ¬ cexPlanned.Nodup ∧ ¬ List.Sorted (· < ·) cexPlanned := by
  have hnd : ¬ cexPlanned.Nodup := by decide
  refine ⟨?_, hnd, fun hs => hnd (hs.imp fun hlt => ne_of_lt hlt)⟩
  have e1 : splitHistoryByYear (List.replicate 32 cexDate) 2024 3 =
      [(2024, List.replicate 32 cexDate)] := by decide
  have e2 : calcYearlyCounts [(2024, List.replicate 32 cexDate)] =
      [⟨2024, 32⟩] := by decide
  have e3 : List.find? (fun s => decide (s.year = 2024))
      [(⟨2024, 32⟩ : YearlyCount)] = some ⟨2024, 32⟩ := by decide
  have e4 : decideTargetYearCount [⟨2024, 32⟩] 2024 = 32 := by
    norm_num [decideTargetYearCount, e3, jsRound]
    intro h1 h2
    have h41 : (41 : ℤ) < ⌈(208 : ℚ) / 5⌉ := by rw [Int.lt_ceil]; norm_num
    omega
  have e5 : calcMonthlyWeights [(2024, List.replicate 32 cexDate)] 2024
      (7 / 10) (3 / 10) = [1, 0, 0, 0, 0, 0, 0, 0, 0, 0, 0, 0] := by
    have hr : List.range 12 = [0, 1, 2, 3, 4, 5, 6, 7, 8, 9, 10, 11] := by decide
    have hf1 : (([(2024, List.replicate 32 cexDate)] :
        List (ℕ × List Str)).filter fun p => decide ((p.1 : ℤ) = 2024)) =
        [(2024, List.replicate 32 cexDate)] := by decide
    have hf2 : (([(2024, List.replicate 32 cexDate)] :
        List (ℕ × List Str)).filter fun p => decide ((p.1 : ℤ) ≠ 2024)) = [] := by
      decide
    have hm0 : monthHits (List.replicate 32 cexDate) 0 = 32 := by decide
    have hm1 : monthHits (List.replicate 32 cexDate) 1 = 0 := by decide
    have hm2 : monthHits (List.replicate 32 cexDate) 2 = 0 := by decide
    have hm3 : monthHits (List.replicate 32 cexDate) 3 = 0 := by decide
    have hm4 : monthHits (List.replicate 32 cexDate) 4 = 0 := by decide
    have hm5 : monthHits (List.replicate 32 cexDate) 5 = 0 := by decide
    have hm6 : monthHits (List.replicate 32 cexDate) 6 = 0 := by decide
    have hm7 : monthHits (List.replicate 32 cexDate) 7 = 0 := by decide
    have hm8 : monthHits (List.replicate 32 cexDate) 8 = 0 := by decide
    have hm9 : monthHits (List.replicate 32 cexDate) 9 = 0 := by decide
    have hm10 : monthHits (List.replicate 32 cexDate) 10 = 0 := by decide
    have hm11 : monthHits (List.replicate 32 cexDate) 11 = 0 := by decide
    simp only [calcMonthlyWeights, hr, hf1, hf2, List.map_cons, List.map_nil,
      List.sum_cons, List.sum_nil]
    simp only [hm0, hm1, hm2, hm3, hm4, hm5, hm6, hm7, hm8, hm9, hm10, hm11]
    norm_num
  have e6 : makeMonthlyTargets 32 [1, 0, 0, 0, 0, 0, 0, 0, 0, 0, 0, 0] =
      [32, 0, 0, 0, 0, 0, 0, 0, 0, 0, 0, 0] := by
    have hred : redistribute [32, 0, 0, 0, 0, 0, 0, 0, 0, 0, 0, 0] 0 0 =
        [32, 0, 0, 0, 0, 0, 0, 0, 0, 0, 0, 0] := by
      rw [redistribute]; norm_num
    simp only [makeMonthlyTargets, List.map_cons, List.map_nil, jsRound]
    norm_num [hred]
  have e7 : parseYmdStr (resolvedStart 2024 (some exStart)) =
      some ⟨2025, 1, 1⟩ := by decide
  have e8 : Ymd.toDaysZ ⟨2025, 1, 1⟩ = 739617 := by decide
  have e9 : monthWalk (739617 + 40) 2025 1 = [(2025, 1), (2025, 2)] := by
    rw [monthWalk, dif_pos (by decide)]
    rw [monthWalk, dif_pos (by decide)]
    rw [monthWalk, dif_neg (by decide)]
    decide
  have e10 : generateDatesForMonth 2025 1 32 =
      [⟨2025,1,1⟩, ⟨2025,1,1⟩, ⟨2025,1,2⟩, ⟨2025,1,3⟩, ⟨2025,1,4⟩, ⟨2025,1,5⟩,
       ⟨2025,1,6⟩, ⟨2025,1,7⟩, ⟨2025,1,8⟩, ⟨2025,1,9⟩, ⟨2025,1,10⟩,
       ⟨2025,1,11⟩, ⟨2025,1,12⟩, ⟨2025,1,13⟩, ⟨2025,1,14⟩, ⟨2025,1,15⟩,
       ⟨2025,1,16⟩, ⟨2025,1,17⟩, ⟨2025,1,18⟩, ⟨2025,1,19⟩, ⟨2025,1,20⟩,
       ⟨2025,1,21⟩, ⟨2025,1,22⟩, ⟨2025,1,23⟩, ⟨2025,1,24⟩, ⟨2025,1,25⟩,
       ⟨2025,1,26⟩, ⟨2025,1,27⟩, ⟨2025,1,28⟩, ⟨2025,1,29⟩, ⟨2025,1,30⟩,
       ⟨2025,1,31⟩] := by
    have hr : List.range 32 =
        [0,1,2,3,4,5,6,7,8,9,10,11,12,13,14,15,16,17,18,19,20,21,22,23,24,25,
         26,27,28,29,30,31] := by decide
    have hdim : daysInMonth 2025 1 = 31 := by decide
    have h32 : (32 : ℤ).toNat = 32 := rfl
    simp only [generateDatesForMonth, hdim, h32, hr]
    norm_num [jsRound, List.map_cons, List.map_nil, Ymd.mk.injEq]
    decide
  have e11 : generateDatesForMonth 2025 2 0 = [] := by decide
  simp only [buildPlanFromHistory, e1, e2, e3, e4, e5, e6, e7, e8, e9,
    List.flatMap_cons, List.flatMap_nil]
  norm_num [maxDN, e10, e11]
  decide

/-- C3 amended: for every accepted input, the `plannedDates` of the
returned `PlanResult` are sorted in non-decreasing order; when a month
receives more dates than it has days, boundary clamping makes consecutive
dates collide, so the list need not be strictly ascending or
duplicate-free. -/
theorem claim_C3_plannedDatesSorted :
    ∀ (h : List Str) (B : ℤ) (s : Option Str) (hz : ℤ) (r : PlanResult),
    buildPlanFromHistory h B s hz = .ok r → r.plannedDates.Sorted (· ≤ ·) := by
  intro h B s hz r hok
  simp only [buildPlanFromHistory] at hok
  repeat' split at hok
  all_goals first
    | exact (JsOutcome.noConfusion hok)
    | (cases hok; exact List.sorted_insertionSort _ _)

/-- Concrete accepted run used to witness C3: one base-year delivery on
2024-03-05, planning 30 days from 2025-01-01. -/
theorem buildPlan_eval_single :
    buildPlanFromHistory [wDate] 2024 (some exStart) 30 =
      JsOutcome.ok ⟨1, [0, 0, 1, 0, 0, 0, 0, 0, 0, 0, 0, 0], []⟩ := by
  have e1 : splitHistoryByYear [wDate] 2024 3 = [(2024, [wDate])] := by decide
  have e2 : calcYearlyCounts [(2024, [wDate])] = [⟨2024, 1⟩] := by decide
  have e3 : List.find? (fun s => decide (s.year = 2024)) [(⟨2024, 1⟩ : YearlyCount)] =
      some ⟨2024, 1⟩ := by decide
  have e4 : decideTargetYearCount [⟨2024, 1⟩] 2024 = 1 := by
    norm_num [decideTargetYearCount, e3, jsRound]
  have e5 : calcMonthlyWeights [(2024, [wDate])] 2024 (7 / 10) (3 / 10) =
      [0, 0, 1, 0, 0, 0, 0, 0, 0, 0, 0, 0] := by
    have hr : List.range 12 = [0, 1, 2, 3, 4, 5, 6, 7, 8, 9, 10, 11] := by decide
    have hf1 : (([(2024, [wDate])] : List (ℕ × List Str)).filter fun p =>
        decide ((p.1 : ℤ) = 2024)) = [(2024, [wDate])] := by decide
    have hf2 : (([(2024, [wDate])] : List (ℕ × List Str)).filter fun p =>
        decide ((p.1 : ℤ) ≠ 2024)) = [] := by decide
    have hm0 : monthHits [wDate] 0 = 0 := by decide
    have hm1 : monthHits [wDate] 1 = 0 := by decide
    have hm2 : monthHits [wDate] 2 = 1 := by decide
    have hm3 : monthHits [wDate] 3 = 0 := by decide
    have hm4 : monthHits [wDate] 4 = 0 := by decide
    have hm5 : monthHits [wDate] 5 = 0 := by decide
    have hm6 : monthHits [wDate] 6 = 0 := by decide
    have hm7 : monthHits [wDate] 7 = 0 := by decide
    have hm8 : monthHits [wDate] 8 = 0 := by decide
    have hm9 : monthHits [wDate] 9 = 0 := by decide
    have hm10 : monthHits [wDate] 10 = 0 := by decide
    have hm11 : monthHits [wDate] 11 = 0 := by decide
    simp only [calcMonthlyWeights, hr, hf1, hf2, List.map_cons, List.map_nil,
      List.sum_cons, List.sum_nil]
    simp only [hm0, hm1, hm2, hm3, hm4, hm5, hm6, hm7, hm8, hm9, hm10, hm11]
    norm_num
  have e6 : makeMonthlyTargets 1 [0, 0, 1, 0, 0, 0, 0, 0, 0, 0, 0, 0] =
      [0, 0, 1, 0, 0, 0, 0, 0, 0, 0, 0, 0] := by
    have hred : redistribute [0, 0, 1, 0, 0, 0, 0, 0, 0, 0, 0, 0] 0 0 =
        [0, 0, 1, 0, 0, 0, 0, 0, 0, 0, 0, 0] := by
      rw [redistribute]; norm_num
    simp only [makeMonthlyTargets, List.map_cons, List.map_nil, jsRound]
    norm_num [hred]
  have e7 : parseYmdStr (resolvedStart 2024 (some exStart)) =
      some ⟨2025, 1, 1⟩ := by decide
  have e8 : Ymd.toDaysZ ⟨2025, 1, 1⟩ = 739617 := by decide
  have e9 : monthWalk (739617 + 30) 2025 1 = [(2025, 1)] := by
    rw [monthWalk, dif_pos (by decide)]
    rw [monthWalk, dif_neg (by decide)]
  simp only [buildPlanFromHistory, e1, e2, e3, e4, e5, e6, e7, e8, e9]
  norm_num [maxDN]
  decide

/-- Witness for the amended C3 at the concrete accepted run above. -/
theorem claim_C3_plannedDatesSorted_witness :
    (⟨1, [0, 0, 1, 0, 0, 0, 0, 0, 0, 0, 0, 0], []⟩ :
      PlanResult).plannedDates.Sorted (· ≤ ·) :=
  claim_C3_plannedDatesSorted [wDate] 2024 (some exStart) 30
    ⟨1, [0, 0, 1, 0, 0, 0, 0, 0, 0, 0, 0, 0], []⟩ buildPlan_eval_single

end Kerosene

namespace Kerosene

theorem pushEntry_keys (k : ℕ) : ∀ (acc : List (ℕ × List Str)) (y : ℕ) (d : Str),
    (∃ p ∈ pushEntry acc y d, p.1 = k) ↔ (∃ p ∈ acc, p.1 = k) ∨ y = k := by
  intro acc
  induction acc with
  | nil =>
    intro y d
    simp [pushEntry, eq_comm]
  | cons a t ih =>
    intro y d
    rcases a with ⟨ak, ads⟩
    by_cases hk : ak = y
    · subst hk
      simp only [pushEntry, if_pos rfl]
      simp [eq_comm]
      tauto
    · simp only [pushEntry, if_neg hk]
      rw [List.exists_mem_cons_iff, List.exists_mem_cons_iff, ih]
      exact or_assoc.symm

theorem pushEntry_ne_nil : ∀ (acc : List (ℕ × List Str)) (y : ℕ) (d : Str),
    (∀ p ∈ acc, p.2 ≠ []) → ∀ p ∈ pushEntry acc y d, p.2 ≠ [] := by
  intro acc
  induction acc with
  | nil =>
    intro y d _ p hp
    simp [pushEntry] at hp
    simp [hp]
  | cons a t ih =>
    intro y d hacc p hp
    rcases a with ⟨ak, ads⟩
    by_cases hk : ak = y
    · subst hk
      simp only [pushEntry, if_pos rfl] at hp
      rcases List.mem_cons.mp hp with h | h
      · simp [h]
      · exact hacc p (List.mem_cons.mpr (Or.inr h))
    · simp only [pushEntry, if_neg hk] at hp
      rcases List.mem_cons.mp hp with h | h
      · subst h
        exact hacc (ak, ads) (by simp)
      · exact ih y d (fun q hq => hacc q (by simp [hq])) p h

theorem foldKeep_keys (B m : ℤ) (k : ℕ) : ∀ (ds : List Str) (acc : List (ℕ × List Str)),
    (∃ p ∈ ds.foldl (keepDate B m) acc, p.1 = k) ↔
      ((∃ p ∈ acc, p.1 = k) ∨
        ∃ d ∈ ds, isoTest d = true ∧ ¬((yearOf d : ℤ) > B) ∧
          ¬((yearOf d : ℤ) < m) ∧ yearOf d = k) := by
  intro ds
  induction ds with
  | nil => simp
  | cons d t ih =>
    intro acc
    simp only [List.foldl_cons]
    rw [ih]
    simp only [List.exists_mem_cons_iff]
    unfold keepDate
    by_cases h1 : isoTest d = true
    · rw [if_neg (by simp [h1])]
      by_cases h2 : (yearOf d : ℤ) > B
      · rw [if_pos h2]
        constructor
        · rintro (h | h)
          · exact Or.inl h
          · exact Or.inr (Or.inr h)
        · rintro (h | (⟨_, hcon, _, _⟩ | h))
          · exact Or.inl h
          · exact absurd h2 hcon
          · exact Or.inr h
      · rw [if_neg h2]
        by_cases h3 : (yearOf d : ℤ) < m
        · rw [if_pos h3]
          constructor
          · rintro (h | h)
            · exact Or.inl h
            · exact Or.inr (Or.inr h)
          · rintro (h | (⟨_, _, hcon, _⟩ | h))
            · exact Or.inl h
            · exact absurd h3 hcon
            · exact Or.inr h
        · rw [if_neg h3]
          rw [pushEntry_keys]
          constructor
          · rintro ((h | h) | h)
            · exact Or.inl h
            · exact Or.inr (Or.inl ⟨h1, h2, h3, h⟩)
            · exact Or.inr (Or.inr h)
          · rintro (h | (⟨_, _, _, h⟩ | h))
            · exact Or.inl (Or.inl h)
            · exact Or.inl (Or.inr h)
            · exact Or.inr h
    · have h1' : isoTest d = false := by
        cases hx : isoTest d
        · rfl
        · exact absurd hx h1
      rw [if_pos (by simp [h1'])]
      constructor
      · rintro (h | h)
        · exact Or.inl h
        · exact Or.inr (Or.inr h)
      · rintro (h | (⟨hcon, _, _, _⟩ | h))
        · exact Or.inl h
        · exact absurd hcon h1
        · exact Or.inr h

theorem foldKeep_ne_nil (B m : ℤ) : ∀ (ds : List Str) (acc : List (ℕ × List Str)),
    (∀ p ∈ acc, p.2 ≠ []) → ∀ p ∈ ds.foldl (keepDate B m) acc, p.2 ≠ [] := by
  intro ds
  induction ds with
  | nil => intro acc h; simpa using h
  | cons d t ih =>
    intro acc hacc
    simp only [List.foldl_cons]
    apply ih
    unfold keepDate
    split
    · exact hacc
    · dsimp only
      split
      · exact hacc
      · split
        · exact hacc
        · exact pushEntry_ne_nil acc _ d hacc

end Kerosene

namespace Kerosene

/-- A format-valid history date whose year slice equals the base year. -/
def HasBaseYearDate (h : List Str) (B : ℤ) : Prop :=
  ∃ d ∈ h, isoTest d = true ∧ (yearOf d : ℤ) = B

theorem split_keys (h : List Str) (B W : ℤ) (k : ℕ) :
    (∃ p ∈ splitHistoryByYear h B W, p.1 = k) ↔
      ∃ d ∈ h, isoTest d = true ∧ ¬((yearOf d : ℤ) > B) ∧
        ¬((yearOf d : ℤ) < B - W) ∧ yearOf d = k := by
  unfold splitHistoryByYear
  constructor
  · rintro ⟨p, hp, hk⟩
    simp only [List.mem_map] at hp
    obtain ⟨q, hq, rfl⟩ := hp
    have := (foldKeep_keys B (B - W) k h []).mp ⟨q, hq, hk⟩
    simpa using this
  · intro hex
    have := (foldKeep_keys B (B - W) k h []).mpr (Or.inr hex)
    obtain ⟨q, hq, hk⟩ := this
    exact ⟨(q.1, List.insertionSort strLeP q.2), by
      simp only [List.mem_map]; exact ⟨q, hq, rfl⟩, hk⟩

theorem split_ne_nil (h : List Str) (B W : ℤ) :
    ∀ p ∈ splitHistoryByYear h B W, p.2 ≠ [] := by
  unfold splitHistoryByYear
  intro p hp
  simp only [List.mem_map] at hp
  obtain ⟨q, hq, rfl⟩ := hp
  have hq2 := foldKeep_ne_nil B (B - W) h [] (by simp) q hq
  intro hcon
  have hlen := (List.perm_insertionSort strLeP q.2).length_eq
  have hcon2 : List.insertionSort strLeP q.2 = [] := hcon
  rw [hcon2] at hlen
  simp at hlen
  exact hq2 (List.eq_nil_of_length_eq_zero hlen.symm)

theorem hasBase_iff_key (h : List Str) (B W : ℤ) (hW : 0 ≤ W) :
    HasBaseYearDate h B ↔ ∃ p ∈ splitHistoryByYear h B W, (p.1 : ℤ) = B := by
  constructor
  · rintro ⟨d, hd, hiso, hyear⟩
    obtain ⟨p, hp, hk⟩ := (split_keys h B W (yearOf d)).mpr
      ⟨d, hd, hiso, by omega, by omega, rfl⟩
    exact ⟨p, hp, by rw [hk]; exact hyear⟩
  · rintro ⟨p, hp, hB⟩
    obtain ⟨d, hd, hiso, _, _, hk⟩ := (split_keys h B W p.1).mp ⟨p, hp, rfl⟩
    exact ⟨d, hd, hiso, by rw [hk]; exact hB⟩

theorem yearly_find_isSome (byYear : List (ℕ × List Str)) (B : ℤ) :
    (List.find? (fun s => decide (s.year = B)) (calcYearlyCounts byYear)).isSome =
      true ↔ ∃ p ∈ byYear, (p.1 : ℤ) = B := by
  rw [List.find?_isSome]
  unfold calcYearlyCounts
  constructor
  · rintro ⟨x, hx, hpx⟩
    have hx2 : x ∈ byYear.map fun p => (⟨(p.1 : ℤ), p.2.length⟩ : YearlyCount) :=
      (List.perm_insertionSort _ _).mem_iff.mp hx
    simp only [List.mem_map] at hx2
    obtain ⟨p, hp, rfl⟩ := hx2
    exact ⟨p, hp, by simpa using hpx⟩
  · rintro ⟨p, hp, hB⟩
    refine ⟨⟨(p.1 : ℤ), p.2.length⟩, ?_, by simpa using hB⟩
    exact (List.perm_insertionSort _ _).mem_iff.mpr
      (List.mem_map.mpr ⟨p, hp, rfl⟩)

theorem yearly_found_count_pos (byYear : List (ℕ × List Str)) (B : ℤ)
    (st : YearlyCount)
    (hne : ∀ p ∈ byYear, p.2 ≠ [])
    (hfind : List.find? (fun s => decide (s.year = B)) (calcYearlyCounts byYear) =
      some st) : st.count ≠ 0 := by
  have hmem := List.mem_of_find?_eq_some hfind
  unfold calcYearlyCounts at hmem
  have hmem2 : st ∈ byYear.map fun p => (⟨(p.1 : ℤ), p.2.length⟩ : YearlyCount) :=
    (List.perm_insertionSort _ _).mem_iff.mp hmem
  simp only [List.mem_map] at hmem2
  obtain ⟨p, hp, rfl⟩ := hmem2
  have := hne p hp
  simpa [List.length_eq_zero] using this

end Kerosene

namespace Kerosene

/-- Complete outcome characterization of `buildPlanFromHistory`: it returns
normally exactly when a base-year date is present and the resolved start
parses to a date whose horizon end stays inside years 0000-9999; it throws
exactly when there is no base-year date or the resolved start fails to
parse (the Invalid Date `RangeError`). -/
theorem buildPlanFromHistory_outcome (h : List Str) (B : ℤ) (s : Option Str)
    (hz : ℤ) :
    ((∃ r, buildPlanFromHistory h B s hz = .ok r) ↔
      (HasBaseYearDate h B ∧ ∃ x, parseYmdStr (resolvedStart B s) = some x ∧
        0 ≤ x.toDaysZ + hz ∧ x.toDaysZ + hz ≤ maxDN)) ∧
    (buildPlanFromHistory h B s hz = .err ↔
      (¬ HasBaseYearDate h B ∨ parseYmdStr (resolvedStart B s) = none)) := by
  by_cases hB : HasBaseYearDate h B
  · have hne : h ≠ [] := by
      obtain ⟨d0, hd0, -⟩ := hB
      intro hcon
      rw [hcon] at hd0
      simp at hd0
    have hsome : (List.find? (fun st => decide (st.year = B))
        (calcYearlyCounts (splitHistoryByYear h B 3))).isSome = true := by
      rw [yearly_find_isSome]
      exact (hasBase_iff_key h B 3 (by norm_num)).mp hB
    obtain ⟨st, hfind⟩ := Option.isSome_iff_exists.mp hsome
    have hcount : st.count ≠ 0 :=
      yearly_found_count_pos _ B st (split_ne_nil h B 3) hfind
    have hyne : calcYearlyCounts (splitHistoryByYear h B 3) ≠ [] := by
      intro hcon
      rw [hcon] at hfind
      simp [List.find?] at hfind
    simp only [buildPlanFromHistory, if_neg hne, if_neg hyne, hfind,
      if_neg hcount]
    cases hp : parseYmdStr (resolvedStart B s) with
    | none =>
      simp only
      constructor
      · constructor
        · rintro ⟨r, hr⟩
          exact (JsOutcome.noConfusion hr)
        · rintro ⟨-, x, hx, -⟩
          exact (Option.noConfusion hx)
      · simp [hB]
    | some x =>
      simp only
      by_cases hrange : x.toDaysZ + hz < 0 ∨ maxDN < x.toDaysZ + hz
      · rw [if_pos hrange]
        constructor
        · constructor
          · rintro ⟨r, hcon⟩
            exact (JsOutcome.noConfusion hcon)
          · rintro ⟨-, x2, hx2, hb1, hb2⟩
            exfalso
            cases hx2
            rcases hrange with hr | hr <;> omega
        · constructor
          · intro hcon
            exact (JsOutcome.noConfusion hcon)
          · rintro (hcon | hcon)
            · exact absurd hB hcon
            · exact (Option.noConfusion hcon)
      · rw [if_neg hrange]
        push_neg at hrange
        constructor
        · constructor
          · intro _
            exact ⟨hB, x, rfl, by omega, by omega⟩
          · intro _
            exact ⟨_, rfl⟩
        · constructor
          · intro hcon
            exact (JsOutcome.noConfusion hcon)
          · rintro (hcon | hcon)
            · exact absurd hB hcon
            · exact (Option.noConfusion hcon)
  · have hfindn : List.find? (fun st => decide (st.year = B))
        (calcYearlyCounts (splitHistoryByYear h B 3)) = none := by
      cases hq : List.find? (fun st => decide (st.year = B))
          (calcYearlyCounts (splitHistoryByYear h B 3)) with
      | none => rfl
      | some st =>
        exfalso
        apply hB
        rw [hasBase_iff_key h B 3 (by norm_num)]
        rw [← yearly_find_isSome]
        rw [hq]
        rfl
    have herr : buildPlanFromHistory h B s hz = .err := by
      by_cases hne : h = []
      · simp [buildPlanFromHistory, hne]
      · by_cases hy : calcYearlyCounts (splitHistoryByYear h B 3) = []
        · simp only [buildPlanFromHistory, if_neg hne, if_pos hy]
        · simp only [buildPlanFromHistory, if_neg hne, if_neg hy, hfindn]
    rw [herr]
    constructor
    · constructor
      · rintro ⟨r, hcon⟩
        exact (JsOutcome.noConfusion hcon)
      · rintro ⟨hcon, -⟩
        exact absurd hcon hB
    · simp [hB]

end Kerosene

namespace Kerosene

/-! ### Claim C10 — when does `buildPlanFromHistory` throw -/

/-- Start string `2024-99-01`: matches the `YYYY-MM-DD` character shape but
is not a calendar date, so `new Date` yields an Invalid Date. -/
def badStart : Str := ['2', '0', '2', '4', '-', '9', '9', '-', '0', '1']

/-- C10 counterexample: the history `["2024-03-05"]` does contain a
format-valid date of the base year 2024, yet `buildPlanFromHistory` with the
start string `2024-99-01` throws (the `RangeError` of `addDaysYmd` on an
Invalid Date), refuting the claim that a base-year date rules out throwing
for every `startFromYmd` and `horizonDays`. -/
theorem claim_C10_throwIff_counterexample :
    HasBaseYearDate [wDate] 2024 ∧
    buildPlanFromHistory [wDate] 2024 (some badStart) 370 = JsOutcome.err :=
  ⟨⟨wDate, by decide, by decide, by decide⟩, by decide⟩

/-- C10 (amended): `buildPlanFromHistory` throws exactly when the history has
no format-valid base-year date **or** the resolved start string does not
parse as a real calendar date; it returns a `PlanResult` exactly when a
base-year date is present, the resolved start parses, and the horizon end
stays within the representable years. -/
theorem claim_C10_throwIff (h : List Str) (B : ℤ) (s : Option Str) (hz : ℤ) :
    ((∃ r, buildPlanFromHistory h B s hz = .ok r) ↔
      (HasBaseYearDate h B ∧ ∃ x, parseYmdStr (resolvedStart B s) = some x ∧
        0 ≤ x.toDaysZ + hz ∧ x.toDaysZ + hz ≤ maxDN)) ∧
    (buildPlanFromHistory h B s hz = .err ↔
      (¬ HasBaseYearDate h B ∨ parseYmdStr (resolvedStart B s) = none)) :=
  buildPlanFromHistory_outcome h B s hz

end Kerosene

namespace Kerosene

/-! ### Claim C5 — phase-aligned fallback stepping (`predict.ts`) -/

/-- Tank types of the source (`'A' | 'B' | 'C'`). -/
inductive TankType where
  | A
  | B
  | C
deriving DecidableEq, Repr

/-- `cycleDaysFromTank` of `src/utils/predict.ts`: A=38, B=42, C=51; with no
tank type, a finite `fallback` if given, else 42. -/
def cycleDaysFromTank (tankType : Option TankType) (fallback : Option ℤ) : ℤ :=
  match tankType with
  | some TankType.A => 38
  | some TankType.B => 42
  | some TankType.C => 51
  | none =>
    match fallback with
    | some f => f
    | none => 42

/-- Options record of `predictNextDatePhaseAligned`.  The `today` field is
passed separately to the model: it is `opts.today ?? jstYmdFromDate(new
Date())`, a real calendar date either way, so the model takes it parsed. -/
structure PredictOpts where
  tankType : Option TankType := none
  cycleDays : Option ℤ := none
  lastDate : Option Str := none
  historyDates : Option (List Str) := none

/-- The base point of `predictNextDatePhaseAligned`: the `maxYmd`-fold of the
format-valid history dates (the `reduce` with the falsy seed `''`), else a
format-valid `lastDate`, else none. -/
def basePoint (o : PredictOpts) : Option Str :=
  let fromHistory : Option Str :=
    match o.historyDates with
    | some l =>
      match l.filter isoTest with
      | [] => none
      | d :: ds => some (ds.foldl maxYmdStr d)
    | none => none
  match fromHistory with
  | some b => some b
  | none =>
    match o.lastDate with
    | some d => if isoTest d then some d else none
    | none => none

/-- The `while (next <= today) next = addDaysYmd(next, cycle)` loop, on
serial day numbers (string comparison of rendered ISO dates agrees with
day-number order).  A non-positive cycle with `next ≤ today` never leaves the
loop (`hang`). -/
def phaseStep (today cycle next : ℤ) : JsOutcome ℤ :=
  if h : next ≤ today then
    if hc : 1 ≤ cycle then phaseStep today cycle (next + cycle)
    else .hang
  else .ok next
  termination_by (today + 1 - next).toNat
  decreasing_by omega

/-- Model of `predictNextDatePhaseAligned`.  `err` marks the `RangeError`
thrown by `addDaysYmd` when the base string is format-shaped but not a real
calendar date. -/
def predictNextDatePhaseAligned (o : PredictOpts) (today : Ymd) :
    JsOutcome Ymd :=
  let cycle : ℤ :=
    match o.cycleDays with
    | some c => c
    | none => cycleDaysFromTank o.tankType none
  match basePoint o with
  | none => .ok (addDays today cycle)
  | some b =>
    match parseYmdStr b with
    | none => .err
    | some bx =>
      match phaseStep today.toDaysZ cycle (bx.toDaysZ + cycle) with
      | .ok dn => .ok (ofDaysZ dn)
      | .err => .err
      | .hang => .hang

theorem parseYmdStr_isoTest {s : Str} {x : Ymd} (h : parseYmdStr s = some x) :
    isoTest s = true := by
  by_cases hi : isoTest s
  · exact hi
  · simp [parseYmdStr, hi] at h

/-- The stepping loop returns the first candidate past `today`, keeping the
phase of its starting point. -/
theorem phaseStep_spec (today cycle : ℤ) (hc : 1 ≤ cycle) (next : ℤ) :
    ∃ j : ℤ, 0 ≤ j ∧ today < next + j * cycle ∧
      (∀ i : ℤ, 0 ≤ i → today < next + i * cycle → j ≤ i) ∧
      phaseStep today cycle next = .ok (next + j * cycle) := by
  by_cases h : next ≤ today
  · obtain ⟨j, hj0, hjgt, hjmin, hjeq⟩ := phaseStep_spec today cycle hc
      (next + cycle)
    have harith : next + cycle + j * cycle = next + (j + 1) * cycle := by ring
    refine ⟨j + 1, by omega, by omega, ?_, ?_⟩
    · intro i hi0 higt
      by_cases hi1 : 1 ≤ i
      · have harith2 : next + cycle + (i - 1) * cycle = next + i * cycle := by
          ring
        have := hjmin (i - 1) (by omega) (by omega)
        omega
      · exfalso
        have hz : i = 0 := by omega
        subst hz
        simp only [zero_mul, add_zero] at higt
        omega
    · rw [phaseStep, dif_pos h, dif_pos hc, hjeq, harith]
  · refine ⟨0, le_refl 0, by omega, fun i hi0 higt => hi0, ?_⟩
    rw [phaseStep, dif_neg h]
    norm_num
  termination_by (today + 1 - next).toNat
  decreasing_by omega

set_option maxRecDepth 10000 in
/-- C5: for every format-valid real `lastDate`, every cycle ≥ 1 and every
`today`, the fallback predictor returns `lastDate + k*cycle` for the least
`k ≥ 1` with `lastDate + k*cycle > today` — the phase of `lastDate` is kept,
never re-anchored to `today + cycle`; and at the spec example (`lastDate`
2024-01-10, cycle 38, today 2024-02-20) the result is 2024-03-26. -/
theorem claim_C5_phaseAligned :
    (∀ (last : Str) (lx : Ymd) (cycle : ℤ) (today : Ymd),
      parseYmdStr last = some lx → 1 ≤ cycle →
      ∃ k : ℤ, 1 ≤ k ∧ today.toDaysZ < lx.toDaysZ + k * cycle ∧
        (∀ i : ℤ, 1 ≤ i → today.toDaysZ < lx.toDaysZ + i * cycle → k ≤ i) ∧
        predictNextDatePhaseAligned ⟨none, some cycle, some last, none⟩
          today = .ok (ofDaysZ (lx.toDaysZ + k * cycle))) ∧
    predictNextDatePhaseAligned ⟨none, some 38, some cexDate, none⟩
      ⟨2024, 2, 20⟩ = .ok ⟨2024, 3, 26⟩ := by
  constructor
  · intro last lx cycle today hp hc
    have hiso : isoTest last = true := parseYmdStr_isoTest hp
    obtain ⟨j, hj0, hjgt, hjmin, hjeq⟩ :=
      phaseStep_spec today.toDaysZ cycle hc (lx.toDaysZ + cycle)
    have harith : lx.toDaysZ + cycle + j * cycle =
        lx.toDaysZ + (j + 1) * cycle := by ring
    refine ⟨j + 1, by omega, by omega, ?_, ?_⟩
    · intro i hi1 higt
      have harith2 : lx.toDaysZ + cycle + (i - 1) * cycle =
          lx.toDaysZ + i * cycle := by ring
      have := hjmin (i - 1) (by omega) (by omega)
      omega
    · simp only [predictNextDatePhaseAligned, basePoint, hiso, if_true, hp]
      rw [hjeq, harith]
  · have htd : Ymd.toDaysZ ⟨2024, 2, 20⟩ = 739301 := by decide
    have hld : Ymd.toDaysZ ⟨2024, 1, 10⟩ = 739260 := by decide
    have hps : phaseStep 739301 38 (739260 + 38) = JsOutcome.ok 739336 := by
      rw [phaseStep, dif_pos (by decide), dif_pos (by decide)]
      norm_num
      rw [phaseStep, dif_neg (by decide)]
    have hpar : parseYmdStr cexDate = some ⟨2024, 1, 10⟩ := by decide
    have hiso : isoTest cexDate = true := by decide
    simp only [predictNextDatePhaseAligned, basePoint, hiso, if_true, hpar,
      htd, hld, hps]
    decide

/-- Witness for C5 at the spec example: lastDate 2024-01-10, cycle 38,
today 2024-02-20. -/
theorem claim_C5_phaseAligned_witness :
    ∃ k : ℤ, 1 ≤ k ∧
      Ymd.toDaysZ ⟨2024, 2, 20⟩ < Ymd.toDaysZ ⟨2024, 1, 10⟩ + k * 38 ∧
      (∀ i : ℤ, 1 ≤ i →
        Ymd.toDaysZ ⟨2024, 2, 20⟩ < Ymd.toDaysZ ⟨2024, 1, 10⟩ + i * 38 →
        k ≤ i) ∧
      predictNextDatePhaseAligned ⟨none, some 38, some cexDate, none⟩
        ⟨2024, 2, 20⟩ = .ok (ofDaysZ (Ymd.toDaysZ ⟨2024, 1, 10⟩ + k * 38)) :=
  claim_C5_phaseAligned.1 cexDate ⟨2024, 1, 10⟩ 38 ⟨2024, 2, 20⟩ (by decide)
    (by decide)

end Kerosene

namespace Kerosene

/-! ### Claim C8 — API failure falls back to the local computation -/

/-- The `/api/predict-next` call as seen by the caller: the fetch may throw,
the response may be non-2xx, the body may fail to parse as JSON, or a JSON
object arrives carrying optional `next` / `nextDate` fields. -/
inductive ApiResponse where
  | fetchError
  | httpError (status : ℕ)
  | badJson
  | payload (next : Option Str) (nextDate : Option Str)

/-- `predictNextByApi`: `null` on every failure mode; on a JSON payload the
`next` field (else `nextDate`) is accepted only when it matches the ISO
shape. -/
def predictNextByApi (r : ApiResponse) : Option Str :=
  match r with
  | ApiResponse.fetchError => none
  | ApiResponse.httpError _ => none
  | ApiResponse.badJson => none
  | ApiResponse.payload next nextDate =>
    match (match next with | some s => some s | none => nextDate) with
    | some iso => if isoTest iso then some iso else none
    | none => none

/-- `pad2`: `String(n).padStart(2, '0')`. -/
def pad2 (n : ℕ) : Str := padZeros 2 (natToChars n)

/-- The `NaN-NaN-NaN` string produced by the template rendering of an
Invalid Date. -/
def nanRender : Str :=
  ['N', 'a', 'N', '-', 'N', 'a', 'N', '-', 'N', 'a', 'N']

/-- `fallbackNextISO`: capacity-based next-date heuristic.  Usable fuel is
`tankCapacity * 0.85`, daily use is `monthlyUsage / 30`, and the next date is
the last date plus `max(7, floor(usable / dailyUse))` days, rendered by the
template `${y}-${mm}-${dd}`; `undefined` when any input is falsy or
non-positive. -/
def fallbackNextISO (lastISO : Option Str) (tankCapacity monthlyUsage : ℚ) :
    Option Str :=
  match lastISO with
  | none => none
  | some last =>
    if last = [] ∨ tankCapacity ≤ 0 ∨ monthlyUsage ≤ 0 then none
    else
      let dailyUse := monthlyUsage / 30
      let usable := tankCapacity * (85 / 100)
      let days : ℤ := max 7 ⌊usable / dailyUse⌋
      match parseYmdStr last with
      | none => some nanRender
      | some lx =>
        let nx := addDays lx days
        some (natToChars nx.y ++ '-' :: pad2 nx.m ++ '-' :: pad2 nx.d)

/-- The stage-A committed value, `const nextISO = apiNext ?? fallback`. -/
def nextISO (api : ApiResponse) (lastISO : Option Str)
    (tankCapacity monthlyUsage : ℚ) : Option Str :=
  match predictNextByApi api with
  | some s => some s
  | none => fallbackNextISO lastISO tankCapacity monthlyUsage

/-- Rendered committed date of the counterexample run, `2024-05-16`. -/
def may16 : Str := ['2', '0', '2', '4', '-', '0', '5', '-', '1', '6']

/-- C8 (amended): every failure mode of the API call yields `null`, and
whenever the call yields `null` the committed `nextISO` equals the local
`fallbackNextISO` capacity heuristic, with no error surfaced. -/
theorem claim_C8_apiFallback :
    (∀ st : ℕ,
      predictNextByApi ApiResponse.fetchError = none ∧
      predictNextByApi (ApiResponse.httpError st) = none ∧
      predictNextByApi ApiResponse.badJson = none ∧
      predictNextByApi (ApiResponse.payload none none) = none ∧
      ∀ s nd, isoTest s = false →
        predictNextByApi (ApiResponse.payload (some s) nd) = none) ∧
    (∀ (api : ApiResponse) (lastISO : Option Str) (cap usage : ℚ),
      predictNextByApi api = none →
      nextISO api lastISO cap usage = fallbackNextISO lastISO cap usage) := by
  constructor
  · intro st
    refine ⟨rfl, rfl, rfl, rfl, ?_⟩
    intro s nd hs
    simp [predictNextByApi, hs]
  · intro api lastISO cap usage hfail
    simp only [nextISO, hfail]

/-- Witness for C8: a fetch failure with last date 2024-01-10, capacity 100,
monthly usage 20 commits the fallback value. -/
theorem claim_C8_apiFallback_witness :
    nextISO ApiResponse.fetchError (some cexDate) 100 20 =
      fallbackNextISO (some cexDate) 100 20 :=
  claim_C8_apiFallback.2 ApiResponse.fetchError (some cexDate) 100 20 rfl

set_option maxRecDepth 10000 in
/-- C8 counterexample: on an API failure with last date 2024-01-10, tank
capacity 100 and monthly usage 20, the committed date is the capacity
heuristic value 2024-05-16, while the FallbackCycler (the phase-preserving
tank-cycle projection, tank A, today 2024-05-20) yields 2024-06-10 — the
committed value is not the FallbackCycler computation. -/
theorem claim_C8_apiFallback_counterexample :
    predictNextByApi ApiResponse.fetchError = none ∧
    nextISO ApiResponse.fetchError (some cexDate) 100 20 = some may16 ∧
    predictNextDatePhaseAligned
      ⟨some TankType.A, none, some cexDate, none⟩ ⟨2024, 5, 20⟩ =
      JsOutcome.ok ⟨2024, 6, 10⟩ ∧
    parseYmdStr may16 = some ⟨2024, 5, 16⟩ ∧
    (⟨2024, 5, 16⟩ : Ymd) ≠ ⟨2024, 6, 10⟩ := by
  refine ⟨rfl, ?_, ?_, by decide, by decide⟩
  · have hpar : parseYmdStr cexDate = some ⟨2024, 1, 10⟩ := by decide
    simp only [nextISO, predictNextByApi, fallbackNextISO, hpar]
    rw [if_neg (by push_neg; exact ⟨by decide, by norm_num, by norm_num⟩)]
    norm_num
    decide
  · have htd : Ymd.toDaysZ ⟨2024, 5, 20⟩ = 739391 := by decide
    have hld : Ymd.toDaysZ ⟨2024, 1, 10⟩ = 739260 := by decide
    have hps : phaseStep 739391 38 (739260 + 38) = JsOutcome.ok 739412 := by
      rw [phaseStep, dif_pos (by decide), dif_pos (by decide)]
      norm_num
      rw [phaseStep, dif_pos (by decide), dif_pos (by decide)]
      norm_num
      rw [phaseStep, dif_pos (by decide), dif_pos (by decide)]
      norm_num
      rw [phaseStep, dif_neg (by decide)]
    have hpar : parseYmdStr cexDate = some ⟨2024, 1, 10⟩ := by decide
    have hiso : isoTest cexDate = true := by decide
    simp only [predictNextDatePhaseAligned, basePoint, cycleDaysFromTank,
      hiso, if_true, hpar, htd, hld, hps]
    decide

end Kerosene

namespace Kerosene

/-! ### Claim C9 — greedy nearest-neighbor route (`vrp.ts`)

Coordinates and distances are modeled over `ℝ` (floats idealized as exact
reals), so these definitions are noncomputable; the concrete example is
settled by real analysis instead of evaluation. -/

/-- `Point`: a latitude/longitude pair. -/
structure Point where
  lat : ℝ
  lng : ℝ

/-- `RouteCandidate`: a point with a customer id. -/
structure RouteCandidate where
  id : ℤ
  lat : ℝ
  lng : ℝ

/-- The coordinate part of a candidate. -/
def toPoint (c : RouteCandidate) : Point := ⟨c.lat, c.lng⟩

/-- Degrees to radians, the `toRad` helper. -/
noncomputable def toRad (d : ℝ) : ℝ := d * Real.pi / 180

/-- `haversineKm`: great-circle distance with Earth radius 6371 km. -/
noncomputable def haversineKm (a b : Point) : ℝ :=
  let R : ℝ := 6371
  let dLat := toRad (b.lat - a.lat)
  let dLng := toRad (b.lng - a.lng)
  let lat1 := toRad a.lat
  let lat2 := toRad b.lat
  let h := Real.sin (dLat / 2) ^ 2 +
    Real.cos lat1 * Real.cos lat2 * Real.sin (dLng / 2) ^ 2
  2 * R * Real.arcsin (min 1 (Real.sqrt h))

/-- `distanceKm`: the wrapper around `haversineKm`. -/
noncomputable def distanceKm (a b : Point) : ℝ := haversineKm a b

open Classical in
/-- The `for` scan of `buildSimpleRoute` over the still-unscanned suffix:
`i` is the index of the suffix head in the full array and `best` the current
`(bestIndex, bestDist)` pair.  (The `Infinity` seed of the source is
realized by seeding with the first element, which the first iteration of the
source loop always installs.) -/
noncomputable def bestOf (cur : Point) :
    List RouteCandidate → ℕ → ℕ × ℝ → ℕ × ℝ
  | [], _, best => best
  | c :: cs, i, best =>
    if distanceKm cur (toPoint c) < best.2 then
      bestOf cur cs (i + 1) (i, distanceKm cur (toPoint c))
    else
      bestOf cur cs (i + 1) best

theorem bestOf_fst_bound (cur : Point) :
    ∀ (l : List RouteCandidate) (i : ℕ) (b : ℕ × ℝ),
      (bestOf cur l i b).1 = b.1 ∨
        (i ≤ (bestOf cur l i b).1 ∧ (bestOf cur l i b).1 < i + l.length) := by
  intro l
  induction l with
  | nil =>
    intro i b
    left
    rfl
  | cons c cs ih =>
    intro i b
    simp only [bestOf]
    split
    · rcases ih (i + 1) (i, distanceKm cur (toPoint c)) with h | h
      · right
        rw [h]
        simp only [List.length_cons]
        omega
      · right
        simp only [List.length_cons]
        omega
    · rcases ih (i + 1) b with h | h
      · left
        exact h
      · right
        simp only [List.length_cons]
        omega

/-- `buildSimpleRoute`: greedy nearest-neighbor — pick the unvisited stop of
minimum distance from the current position (first index on ties), splice it
out, advance to it. -/
noncomputable def buildSimpleRoute (depot : Point) :
    List RouteCandidate → List RouteCandidate
  | [] => []
  | c :: cs =>
    let b := bestOf depot (c :: cs) 0 (0, distanceKm depot (toPoint c))
    let next := (c :: cs).getD b.1 c
    let rem := (c :: cs).take b.1 ++ (c :: cs).drop (b.1 + 1)
    next :: buildSimpleRoute (toPoint next) rem
  termination_by l => l.length
  decreasing_by
    rcases bestOf_fst_bound depot (c :: cs) 0
      (0, distanceKm depot (toPoint c)) with h | h
    · simp only [List.length_append, List.length_take, List.length_drop, h,
        List.length_cons]
      omega
    · simp only [List.length_append, List.length_take, List.length_drop,
        List.length_cons] at h ⊢
      omega

theorem bestOf_getD (cur : Point) (full : List RouteCandidate)
    (d0 : RouteCandidate) :
    ∀ (l : List RouteCandidate) (i bi : ℕ) (bd : ℝ),
      full.drop i = l →
      bi < full.length →
      distanceKm cur (toPoint (full.getD bi d0)) = bd →
      (bestOf cur l i (bi, bd)).1 < full.length ∧
      distanceKm cur (toPoint (full.getD (bestOf cur l i (bi, bd)).1 d0)) =
        (bestOf cur l i (bi, bd)).2 ∧
      (bestOf cur l i (bi, bd)).2 ≤ bd ∧
      ∀ c ∈ l, (bestOf cur l i (bi, bd)).2 ≤ distanceKm cur (toPoint c) := by
  intro l
  induction l with
  | nil =>
    intro i bi bd hdrop hbi hd
    refine ⟨hbi, ?_, le_refl _, by simp⟩
    simp only [bestOf]
    exact hd
  | cons c cs ih =>
    intro i bi bd hdrop hbi hd
    have hIlt : i < full.length := by
      by_contra hcon
      push_neg at hcon
      rw [List.drop_eq_nil_of_le hcon] at hdrop
      exact List.cons_ne_nil c cs hdrop.symm
    have hgetc : full.getD i d0 = c := by
      have h1 : full[i]? = some c := by
        have h2 : (full.drop i)[0]? = some c := by
          rw [hdrop]
          simp
        rwa [List.getElem?_drop, Nat.add_zero] at h2
      rw [List.getD_eq_getElem?_getD, h1]
      rfl
    have hdrop1 : full.drop (i + 1) = cs := by
      have h3 := List.drop_drop 1 i full
      rw [hdrop] at h3
      simp only [List.drop_one, List.tail_cons] at h3
      exact h3.symm
    simp only [bestOf]
    split
    · rename_i hlt
      obtain ⟨r1, r2, r3, r4⟩ := ih (i + 1) i (distanceKm cur (toPoint c))
        hdrop1 hIlt (by rw [hgetc])
      refine ⟨r1, r2, by linarith, ?_⟩
      intro c2 hc2
      rcases List.mem_cons.mp hc2 with hh | ht
      · rw [hh]
        exact r3
      · exact r4 c2 ht
    · rename_i hnlt
      push_neg at hnlt
      obtain ⟨r1, r2, r3, r4⟩ := ih (i + 1) bi bd hdrop1 hbi hd
      refine ⟨r1, r2, r3, ?_⟩
      intro c2 hc2
      rcases List.mem_cons.mp hc2 with hh | ht
      · rw [hh]
        exact le_trans r3 hnlt
      · exact r4 c2 ht

/-- Greedy nearest-neighbor specification: the output consumes the
candidates one at a time, always taking a stop of minimum distance from the
current position among those not yet visited, and advancing to it. -/
inductive Greedy : Point → List RouteCandidate → List RouteCandidate → Prop
  | nil (cur : Point) : Greedy cur [] []
  | step (cur : Point) (next : RouteCandidate)
      (l1 l2 out : List RouteCandidate)
      (hmin : ∀ c ∈ l1 ++ next :: l2,
        distanceKm cur (toPoint next) ≤ distanceKm cur (toPoint c))
      (hrest : Greedy (toPoint next) (l1 ++ l2) out) :
      Greedy cur (l1 ++ next :: l2) (next :: out)

theorem buildSimpleRoute_greedy (depot : Point)
    (candidates : List RouteCandidate) :
    Greedy depot candidates (buildSimpleRoute depot candidates) := by
  match candidates with
  | [] =>
    rw [buildSimpleRoute]
    exact Greedy.nil depot
  | c :: cs =>
    rw [buildSimpleRoute]
    obtain ⟨r1, r2, r3, r4⟩ := bestOf_getD depot (c :: cs) c (c :: cs) 0 0
      (distanceKm depot (toPoint c)) rfl (by simp) rfl
    have hsplit : (c :: cs) =
        (c :: cs).take (bestOf depot (c :: cs) 0
          (0, distanceKm depot (toPoint c))).1 ++
        (c :: cs).getD (bestOf depot (c :: cs) 0
          (0, distanceKm depot (toPoint c))).1 c ::
        (c :: cs).drop ((bestOf depot (c :: cs) 0
          (0, distanceKm depot (toPoint c))).1 + 1) := by
      conv_lhs => rw [← List.take_append_drop (bestOf depot (c :: cs) 0
        (0, distanceKm depot (toPoint c))).1 (c :: cs)]
      rw [List.drop_eq_getElem_cons r1, List.getD_eq_getElem (c :: cs) c r1]
    have hrec := buildSimpleRoute_greedy
      (toPoint ((c :: cs).getD (bestOf depot (c :: cs) 0
        (0, distanceKm depot (toPoint c))).1 c))
      ((c :: cs).take (bestOf depot (c :: cs) 0
        (0, distanceKm depot (toPoint c))).1 ++
       (c :: cs).drop ((bestOf depot (c :: cs) 0
        (0, distanceKm depot (toPoint c))).1 + 1))
    have hstep := Greedy.step depot
      ((c :: cs).getD (bestOf depot (c :: cs) 0
        (0, distanceKm depot (toPoint c))).1 c)
      ((c :: cs).take (bestOf depot (c :: cs) 0
        (0, distanceKm depot (toPoint c))).1)
      ((c :: cs).drop ((bestOf depot (c :: cs) 0
        (0, distanceKm depot (toPoint c))).1 + 1))
      (buildSimpleRoute
        (toPoint ((c :: cs).getD (bestOf depot (c :: cs) 0
          (0, distanceKm depot (toPoint c))).1 c))
        ((c :: cs).take (bestOf depot (c :: cs) 0
          (0, distanceKm depot (toPoint c))).1 ++
         (c :: cs).drop ((bestOf depot (c :: cs) 0
          (0, distanceKm depot (toPoint c))).1 + 1)))
      (by
        intro c2 hc2
        rw [r2]
        exact r4 c2 (by rw [hsplit]; exact hc2))
      hrec
    rw [← hsplit] at hstep
    exact hstep
  termination_by candidates.length
  decreasing_by
    rcases bestOf_fst_bound depot (c :: cs) 0
      (0, distanceKm depot (toPoint c)) with h | h
    · simp only [List.length_append, List.length_take, List.length_drop, h,
        List.length_cons]
      omega
    · simp only [List.length_append, List.length_take, List.length_drop,
        List.length_cons] at h ⊢
      omega

theorem buildSimpleRoute_perm (depot : Point)
    (candidates : List RouteCandidate) :
    List.Perm (buildSimpleRoute depot candidates) candidates := by
  have h := buildSimpleRoute_greedy depot candidates
  generalize hout : buildSimpleRoute depot candidates = out at h
  clear hout
  induction h with
  | nil cur => exact List.Perm.refl []
  | step cur next l1 l2 out hmin hrest ih =>
    exact (List.Perm.cons next ih).trans List.perm_middle.symm

end Kerosene

namespace Kerosene

/-- Depot of the spec route example, `(34.0, 132.0)`. -/
def depotEx : Point := ⟨34, 132⟩

/-- Stop `A(34.01, 132.00)` of the spec route example. -/
noncomputable def stopA : RouteCandidate := ⟨1, 34 + 1 / 100, 132⟩

/-- Stop `B(34.00, 132.05)` of the spec route example. -/
noncomputable def stopB : RouteCandidate := ⟨2, 34, 132 + 5 / 100⟩

theorem cos17_ge : (1 : ℝ) / 2 ≤ Real.cos (17 * Real.pi / 90) := by
  have hπ : 0 < Real.pi := Real.pi_pos
  have hcos : Real.cos (Real.pi / 3) ≤ Real.cos (17 * Real.pi / 90) :=
    Real.cos_le_cos_of_nonneg_of_le_pi (by positivity) (by nlinarith)
      (by nlinarith)
  rwa [Real.cos_pi_div_three] at hcos

theorem sinSmall_le : Real.sin (Real.pi / 36000) ≤
    Real.cos (17 * Real.pi / 90) * Real.sin (Real.pi / 7200) := by
  have hπ : 0 < Real.pi := Real.pi_pos
  have hπ4 : Real.pi ≤ 4 := Real.pi_le_four
  have hx0 : 0 < Real.pi / 7200 := by positivity
  have hx1 : Real.pi / 7200 ≤ 1 := by nlinarith
  have hx2 : (Real.pi / 7200) ^ 2 ≤ 1 := by nlinarith
  have hsinx := Real.sin_gt_sub_cube hx0 hx1
  have hsiny := Real.sin_lt (show 0 < Real.pi / 36000 by positivity)
  have hcos := cos17_ge
  have hsx_pos : 0 < Real.sin (Real.pi / 7200) := by nlinarith
  have h1 : Real.pi / 36000 ≤
      (1 / 2) * (Real.pi / 7200 - (Real.pi / 7200) ^ 3 / 4) := by
    nlinarith [mul_pos hx0 hx0, mul_nonneg (le_of_lt hx0) (sq_nonneg (Real.pi / 7200)), hx2, mul_le_of_le_one_right (le_of_lt hx0) hx2]
  have h3 : (1 / 2) * Real.sin (Real.pi / 7200) ≤
      Real.cos (17 * Real.pi / 90) * Real.sin (Real.pi / 7200) := by
    nlinarith
  nlinarith

theorem dist_depot_le :
    distanceKm depotEx (toPoint stopA) ≤ distanceKm depotEx (toPoint stopB) := by
  have hπ : 0 < Real.pi := Real.pi_pos
  simp only [distanceKm, haversineKm, toPoint, depotEx, stopA, stopB]
  have e1 : ((34 : ℝ) + 1 / 100 - 34) * Real.pi / 180 / 2 =
      Real.pi / 36000 := by ring
  have e2 : ((132 : ℝ) - 132) * Real.pi / 180 / 2 = 0 := by ring
  have e3 : ((34 : ℝ) - 34) * Real.pi / 180 / 2 = 0 := by ring
  have e4 : ((132 : ℝ) + 5 / 100 - 132) * Real.pi / 180 / 2 =
      Real.pi / 7200 := by ring
  have e5 : (34 : ℝ) * Real.pi / 180 = 17 * Real.pi / 90 := by ring
  simp only [toRad, e1, e2, e3, e4, e5, Real.sin_zero, ne_eq,
    OfNat.ofNat_ne_zero, not_false_eq_true, zero_pow, mul_zero, add_zero,
    zero_add]
  have hsA : 0 ≤ Real.sin (Real.pi / 36000) :=
    Real.sin_nonneg_of_nonneg_of_le_pi (by positivity) (by nlinarith)
  have hsB : 0 ≤ Real.sin (Real.pi / 7200) :=
    Real.sin_nonneg_of_nonneg_of_le_pi (by positivity) (by nlinarith)
  have hcos0 : 0 ≤ Real.cos (17 * Real.pi / 90) := by
    have := cos17_ge
    linarith
  have hs1 : Real.sqrt (Real.sin (Real.pi / 36000) ^ 2) =
      Real.sin (Real.pi / 36000) := Real.sqrt_sq hsA
  have hs2 : Real.cos (17 * Real.pi / 90) * Real.cos (17 * Real.pi / 90) *
      Real.sin (Real.pi / 7200) ^ 2 =
      (Real.cos (17 * Real.pi / 90) * Real.sin (Real.pi / 7200)) ^ 2 := by
    ring
  have hs3 : Real.sqrt ((Real.cos (17 * Real.pi / 90) *
      Real.sin (Real.pi / 7200)) ^ 2) =
      Real.cos (17 * Real.pi / 90) * Real.sin (Real.pi / 7200) :=
    Real.sqrt_sq (mul_nonneg hcos0 hsB)
  rw [hs1, hs2, hs3]
  rw [min_eq_right (Real.sin_le_one _),
    min_eq_right (mul_le_one (Real.cos_le_one _) hsB (Real.sin_le_one _))]
  have harc : Real.arcsin (Real.sin (Real.pi / 36000)) ≤
      Real.arcsin (Real.cos (17 * Real.pi / 90) * Real.sin (Real.pi / 7200)) :=
    Real.monotone_arcsin sinSmall_le
  nlinarith [harc]

theorem routeExampleEval :
    buildSimpleRoute depotEx [stopA, stopB] = [stopA, stopB] := by
  have hAB : ¬ (distanceKm depotEx (toPoint stopB) <
      distanceKm depotEx (toPoint stopA)) := not_lt.mpr dist_depot_le
  have hb1 : bestOf depotEx [stopA, stopB] 0
      (0, distanceKm depotEx (toPoint stopA)) =
      (0, distanceKm depotEx (toPoint stopA)) := by
    simp only [bestOf]
    rw [if_neg (lt_irrefl _), if_neg hAB]
  have hb2 : bestOf (toPoint stopA) [stopB] 0
      (0, distanceKm (toPoint stopA) (toPoint stopB)) =
      (0, distanceKm (toPoint stopA) (toPoint stopB)) := by
    simp only [bestOf]
    rw [if_neg (lt_irrefl _)]
  rw [buildSimpleRoute]
  simp only [hb1, List.getD_cons_zero, List.take_zero, List.nil_append,
    List.drop_succ_cons, List.drop_zero]
  rw [buildSimpleRoute]
  simp only [hb2, List.getD_cons_zero, List.take_zero, List.nil_append,
    List.drop_succ_cons, List.drop_zero, List.drop_nil]
  rw [buildSimpleRoute]

/-- C9: `buildSimpleRoute` returns a permutation of its candidates in which
each successive stop is an unvisited stop of minimum haversine distance from
the current position (starting at the depot, advancing to each chosen stop);
at the spec example — depot `(34.0, 132.0)`, `A(34.01, 132.00)`,
`B(34.00, 132.05)` — the output order is `[A, B]`. -/
theorem claim_C9_routeGreedy :
    (∀ (depot : Point) (candidates : List RouteCandidate),
      List.Perm (buildSimpleRoute depot candidates) candidates ∧
      Greedy depot candidates (buildSimpleRoute depot candidates)) ∧
    buildSimpleRoute depotEx [stopA, stopB] = [stopA, stopB] :=
  ⟨fun depot candidates =>
    ⟨buildSimpleRoute_perm depot candidates,
     buildSimpleRoute_greedy depot candidates⟩,
   routeExampleEval⟩

end Kerosene

namespace Kerosene

/-! ### Claims C1 and C6 — the reconciliation pass (`db.ts`)

Plan-store entries `(dateISO, customerId)` are carried as
`(serial day number, customerId)`: under the header idealization the ISO
strings of 4-digit years that the code stores and compares are
order-isomorphic to their day numbers.  Order rows keep their raw date
strings, which may be arbitrary. -/

/-- A row of the `orders` table; fields other than `customerId` and `date`
do not influence reconciliation. -/
structure OrderRec where
  customerId : ℤ
  date : Str

/-- A row of the `customers` table; fields other than `id` and `tankType`
do not influence reconciliation. -/
structure Customer where
  id : Option ℤ
  tankType : Option TankType

/-- The `plans` table, keyed by `(dateISO, customerId)` (the Dexie key
`${dateISO}#${customerId}` makes `put` set-like). -/
abbrev PlanStore := Finset (ℤ × ℤ)

/-- `getLastDeliveredYmd`: the `maxYmd`-fold over the format-valid order
dates of the customer, `null` when there are none. -/
def getLastDeliveredYmd (orders : List OrderRec) (customerId : ℤ) :
    Option Str :=
  (orders.filter fun o => decide (o.customerId = customerId)).foldl
    (fun last o =>
      if isoTest o.date then
        match last with
        | some l => some (maxYmdStr l o.date)
        | none => some o.date
      else last)
    none

/-- `getHistoryDatesForCustomer`: the customer's format-valid dates with
year in `[baseYear - maxYearsBack, baseYear]`, sorted (JS `Array.sort`,
lexicographic). -/
def getHistoryDatesForCustomer (orders : List OrderRec) (customerId : ℤ)
    (baseYear maxYearsBack : ℤ) : List Str :=
  let minYear := baseYear - maxYearsBack
  let out := (orders.filter fun o => decide (o.customerId = customerId)).foldl
    (fun acc o =>
      if isoTest o.date ∧ (yearOf o.date : ℤ) ≤ baseYear ∧
          minYear ≤ (yearOf o.date : ℤ) then
        acc ++ [o.date]
      else acc) []
  List.insertionSort strLeP out

/-- `deleteFuturePlansForCustomer`: drop the customer's entries with
`dateISO >= fromYmd`. -/
def deleteFuturePlansForCustomer (store : PlanStore) (customerId fromDn : ℤ) :
    PlanStore :=
  store.filter fun p => ¬(p.2 = customerId ∧ fromDn ≤ p.1)

/-- `deleteAllPlansForCustomer`: drop all entries of the customer. -/
def deleteAllPlansForCustomer (store : PlanStore) (customerId : ℤ) :
    PlanStore :=
  store.filter fun p => p.2 ≠ customerId

/-- `upsertPlan`: `put` with the composite key. -/
def upsertPlan (store : PlanStore) (dateDn customerId : ℤ) : PlanStore :=
  insert (dateDn, customerId) store

/-- The fallback upsert loop
`while (next <= horizonEnd) { upsertPlan(next, cid); next += cycle }`; a
non-positive cycle that enters the loop never leaves it. -/
def cycleChain (horizonEnd cycle customerId : ℤ) (next : ℤ)
    (store : PlanStore) : JsOutcome PlanStore :=
  if h : next ≤ horizonEnd then
    if hc : 1 ≤ cycle then
      cycleChain horizonEnd cycle customerId (next + cycle)
        (upsertPlan store next customerId)
    else .hang
  else .ok store
  termination_by (horizonEnd + 1 - next).toNat
  decreasing_by omega

/-- Fallback branch ② of `buildMonthlyPlanByThreshold`: no record at all
deletes every plan of the customer; otherwise future plans are rebuilt from
the phase-aligned cycle chain.  `err` is the uncaught `RangeError` of
`addDaysYmd` on a format-shaped non-date last delivery. -/
def planFallback (orders : List OrderRec) (today : Ymd)
    (horizonDays fallbackCycleDays : ℤ) (tankType : Option TankType)
    (cid : ℤ) (store : PlanStore) : JsOutcome PlanStore :=
  match getLastDeliveredYmd orders cid with
  | none => .ok (deleteAllPlansForCustomer store cid)
  | some last =>
    let store2 := deleteFuturePlansForCustomer store cid today.toDaysZ
    let cycle := cycleDaysFromTank tankType (some fallbackCycleDays)
    match parseYmdStr last with
    | none => .err
    | some lx =>
      match phaseStep today.toDaysZ cycle (lx.toDaysZ + cycle) with
      | .ok next =>
        cycleChain (today.toDaysZ + horizonDays) cycle cid next store2
      | .err => .err
      | .hang => .hang

/-- One iteration of the customer loop of `buildMonthlyPlanByThreshold`:
branch ① (base-year records present) rebuilds the future from
`buildPlanFromHistory`, falling back on a thrown forecast; branch ② is the
fixed-cycle fallback. -/
def planStep (orders : List OrderRec) (today : Ymd)
    (horizonDays fallbackCycleDays maxYearsBack : ℤ) (store : PlanStore)
    (c : Customer) : JsOutcome PlanStore :=
  match c.id with
  | none => .ok store
  | some cid =>
    let baseYear : ℤ := (today.y : ℤ) - 1
    let historyDates :=
      getHistoryDatesForCustomer orders cid baseYear maxYearsBack
    let baseYearDates :=
      historyDates.filter fun d => decide (d.take 4 = intToChars baseYear)
    let todayDn := today.toDaysZ
    if 0 < baseYearDates.length then
      let store1 := deleteFuturePlansForCustomer store cid todayDn
      match buildPlanFromHistory historyDates baseYear
          (some (renderYmd today)) horizonDays with
      | .ok r =>
        .ok (r.plannedDates.foldl
          (fun st dn => if dn < todayDn then st else upsertPlan st dn cid)
          store1)
      | .hang => .hang
      | .err =>
        planFallback orders today horizonDays fallbackCycleDays c.tankType
          cid store1
    else
      planFallback orders today horizonDays fallbackCycleDays c.tankType
        cid store

/-- `buildMonthlyPlanByThreshold`: the customer loop as a fold.  `today`
(`jstYmdFromDate(new Date())`) is passed explicitly; `currentYear` is its
year and `baseYear = currentYear - 1`; option defaults are 370 / 42 / 3. -/
def buildMonthlyPlanByThreshold (customers : List Customer)
    (orders : List OrderRec) (today : Ymd)
    (horizonDays fallbackCycleDays maxYearsBack : ℤ) (store : PlanStore) :
    JsOutcome PlanStore :=
  customers.foldl
    (fun acc c =>
      match acc with
      | .ok st =>
        planStep orders today horizonDays fallbackCycleDays maxYearsBack st c
      | e => e)
    (.ok store)

end Kerosene

namespace Kerosene

/-- The effect of one customer iteration on the plan store, separated from
the store itself (the branch taken and the dates written depend only on the
orders, the date and the options, never on the store). -/
inductive StepEffect where
  | skip
  | purge (cid : ℤ)
  | replaceFuture (cid : ℤ) (dates : Finset ℤ)

/-- Apply an effect to a store. -/
def applyEffect (todayDn : ℤ) (store : PlanStore) : StepEffect → PlanStore
  | .skip => store
  | .purge cid => deleteAllPlansForCustomer store cid
  | .replaceFuture cid f =>
    deleteFuturePlansForCustomer store cid todayDn ∪
      f.image fun d => (d, cid)

/-- Entries an effect removes. -/
def effectRemoves (todayDn : ℤ) : StepEffect → ℤ × ℤ → Prop
  | .skip, _ => False
  | .purge cid, p => p.2 = cid
  | .replaceFuture cid _, p => p.2 = cid ∧ todayDn ≤ p.1

/-- Entries an effect inserts. -/
def effectAdds : StepEffect → ℤ × ℤ → Prop
  | .skip, _ => False
  | .purge _, _ => False
  | .replaceFuture cid f, p => p.2 = cid ∧ p.1 ∈ f

theorem mem_applyEffect (todayDn : ℤ) (store : PlanStore) (e : StepEffect)
    (p : ℤ × ℤ) :
    p ∈ applyEffect todayDn store e ↔
      (p ∈ store ∧ ¬ effectRemoves todayDn e p) ∨ effectAdds e p := by
  cases e with
  | skip => simp [applyEffect, effectRemoves, effectAdds]
  | purge cid =>
    simp [applyEffect, effectRemoves, effectAdds, deleteAllPlansForCustomer,
      Finset.mem_filter]
  | replaceFuture cid f =>
    simp only [applyEffect, effectRemoves, effectAdds, Finset.mem_union,
      deleteFuturePlansForCustomer, Finset.mem_filter, Finset.mem_image]
    constructor
    · rintro ((⟨h1, h2⟩) | ⟨d, hd, hp⟩)
      · exact Or.inl ⟨h1, h2⟩
      · right
        rw [← hp]
        exact ⟨rfl, hd⟩
    · rintro (⟨h1, h2⟩ | ⟨h1, h2⟩)
      · exact Or.inl ⟨h1, h2⟩
      · right
        exact ⟨p.1, h2, by rw [← h1]⟩

/-- The dates of the fallback cycle chain, store-free. -/
def chainDates (horizonEnd cycle : ℤ) (next : ℤ) : JsOutcome (List ℤ) :=
  if h : next ≤ horizonEnd then
    if hc : 1 ≤ cycle then
      match chainDates horizonEnd cycle (next + cycle) with
      | .ok ds => .ok (next :: ds)
      | .err => .err
      | .hang => .hang
    else .hang
  else .ok []
  termination_by (horizonEnd + 1 - next).toNat
  decreasing_by omega

theorem cycleChain_eq (horizonEnd cycle cid next : ℤ) (store : PlanStore) :
    cycleChain horizonEnd cycle cid next store =
      match chainDates horizonEnd cycle next with
      | .ok ds => .ok (store ∪ (ds.map fun d => (d, cid)).toFinset)
      | .err => .err
      | .hang => .hang := by
  by_cases h : next ≤ horizonEnd
  · by_cases hc : 1 ≤ cycle
    · rw [cycleChain, dif_pos h, dif_pos hc,
        cycleChain_eq horizonEnd cycle cid (next + cycle) (upsertPlan store next cid)]
      conv_rhs => rw [chainDates, dif_pos h, dif_pos hc]
      cases chainDates horizonEnd cycle (next + cycle) with
      | ok ds =>
        simp only [List.map_cons, List.toFinset_cons, upsertPlan,
          Finset.insert_union, Finset.union_insert]
      | err => rfl
      | hang => rfl
    · rw [cycleChain, dif_pos h, dif_neg hc, chainDates, dif_pos h,
        dif_neg hc]
  · rw [cycleChain, dif_neg h, chainDates, dif_neg h]
    simp
  termination_by (horizonEnd + 1 - next).toNat
  decreasing_by omega

theorem chainDates_mem_ge (horizonEnd cycle next : ℤ) (ds : List ℤ)
    (hok : chainDates horizonEnd cycle next = .ok ds) :
    ∀ d ∈ ds, next ≤ d := by
  intro d hd
  by_cases h : next ≤ horizonEnd
  · by_cases hc : 1 ≤ cycle
    · rw [chainDates, dif_pos h, dif_pos hc] at hok
      cases hrec : chainDates horizonEnd cycle (next + cycle) with
      | ok ds2 =>
        rw [hrec] at hok
        cases hok
        rcases List.mem_cons.mp hd with hh | ht
        · omega
        · have := chainDates_mem_ge horizonEnd cycle (next + cycle) ds2 hrec d ht
          omega
      | err =>
        rw [hrec] at hok
        exact (JsOutcome.noConfusion hok)
      | hang =>
        rw [hrec] at hok
        exact (JsOutcome.noConfusion hok)
    · rw [chainDates, dif_pos h, dif_neg hc] at hok
      exact (JsOutcome.noConfusion hok)
  · rw [chainDates, dif_neg h] at hok
    cases hok
    simp at hd
  termination_by (horizonEnd + 1 - next).toNat
  decreasing_by omega

theorem phaseStep_ok_gt (t c n m : ℤ) (hok : phaseStep t c n = .ok m) :
    t < m := by
  by_cases h : n ≤ t
  · by_cases hc : 1 ≤ c
    · rw [phaseStep, dif_pos h, dif_pos hc] at hok
      exact phaseStep_ok_gt t c (n + c) m hok
    · rw [phaseStep, dif_pos h, dif_neg hc] at hok
      exact (JsOutcome.noConfusion hok)
  · rw [phaseStep, dif_neg h] at hok
    cases hok
    omega
  termination_by (t + 1 - n).toNat
  decreasing_by omega

end Kerosene

namespace Kerosene

/-- Store-free effect of fallback branch ②. -/
def fallbackEffect (orders : List OrderRec) (today : Ymd)
    (horizonDays fallbackCycleDays : ℤ) (tankType : Option TankType)
    (cid : ℤ) : JsOutcome StepEffect :=
  match getLastDeliveredYmd orders cid with
  | none => .ok (StepEffect.purge cid)
  | some last =>
    let cycle := cycleDaysFromTank tankType (some fallbackCycleDays)
    match parseYmdStr last with
    | none => .err
    | some lx =>
      match phaseStep today.toDaysZ cycle (lx.toDaysZ + cycle) with
      | .ok next =>
        match chainDates (today.toDaysZ + horizonDays) cycle next with
        | .ok ds => .ok (StepEffect.replaceFuture cid ds.toFinset)
        | .err => .err
        | .hang => .hang
      | .err => .err
      | .hang => .hang

/-- Store-free effect of one customer iteration. -/
def stepEffect (orders : List OrderRec) (today : Ymd)
    (horizonDays fallbackCycleDays maxYearsBack : ℤ) (c : Customer) :
    JsOutcome StepEffect :=
  match c.id with
  | none => .ok StepEffect.skip
  | some cid =>
    let baseYear : ℤ := (today.y : ℤ) - 1
    let historyDates :=
      getHistoryDatesForCustomer orders cid baseYear maxYearsBack
    let baseYearDates :=
      historyDates.filter fun d => decide (d.take 4 = intToChars baseYear)
    let todayDn := today.toDaysZ
    if 0 < baseYearDates.length then
      match buildPlanFromHistory historyDates baseYear
          (some (renderYmd today)) horizonDays with
      | .ok r =>
        .ok (StepEffect.replaceFuture cid
          (r.plannedDates.filter fun dn => decide (¬ dn < todayDn)).toFinset)
      | .hang => .hang
      | .err =>
        fallbackEffect orders today horizonDays fallbackCycleDays c.tankType
          cid
    else
      fallbackEffect orders today horizonDays fallbackCycleDays c.tankType cid

theorem deleteAll_deleteFuture (st : PlanStore) (cid dn : ℤ) :
    deleteAllPlansForCustomer (deleteFuturePlansForCustomer st cid dn) cid =
      deleteAllPlansForCustomer st cid := by
  ext p
  simp only [deleteAllPlansForCustomer, deleteFuturePlansForCustomer,
    Finset.mem_filter]
  constructor
  · rintro ⟨⟨h1, -⟩, h3⟩
    exact ⟨h1, h3⟩
  · rintro ⟨h1, h3⟩
    exact ⟨⟨h1, fun hcon => h3 hcon.1⟩, h3⟩

theorem deleteFuture_idem (st : PlanStore) (cid dn : ℤ) :
    deleteFuturePlansForCustomer
      (deleteFuturePlansForCustomer st cid dn) cid dn =
      deleteFuturePlansForCustomer st cid dn := by
  ext p
  simp only [deleteFuturePlansForCustomer, Finset.mem_filter]
  tauto

theorem upsertFold (cid todayDn : ℤ) :
    ∀ (l : List ℤ) (st : PlanStore),
      l.foldl (fun st dn => if dn < todayDn then st else upsertPlan st dn cid)
        st =
      st ∪ ((l.filter fun dn => decide (¬ dn < todayDn)).map
        fun d => (d, cid)).toFinset := by
  intro l
  induction l with
  | nil =>
    intro st
    simp
  | cons d ds ih =>
    intro st
    by_cases hd : d < todayDn
    · simp only [List.foldl_cons, if_pos hd, List.filter_cons,
        decide_eq_true (show ¬¬ d < todayDn from not_not_intro hd)]
      rw [decide_eq_false (not_not_intro hd)]
      simp only [Bool.false_eq_true, if_false]
      exact ih st
    · simp only [List.foldl_cons, if_neg hd, List.filter_cons]
      rw [decide_eq_true hd]
      simp only [if_true, List.map_cons, List.toFinset_cons]
      rw [ih (upsertPlan st d cid)]
      simp only [upsertPlan, Finset.insert_union, Finset.union_insert]

theorem toFinset_map_pair (cid : ℤ) (ds : List ℤ) :
    (ds.map fun d => (d, cid)).toFinset = ds.toFinset.image fun d => (d, cid) := by
  ext q
  simp

theorem planFallback_eq (orders : List OrderRec) (today : Ymd)
    (horizonDays fallbackCycleDays : ℤ) (tankType : Option TankType)
    (cid : ℤ) (st : PlanStore) :
    planFallback orders today horizonDays fallbackCycleDays tankType cid st =
      match fallbackEffect orders today horizonDays fallbackCycleDays
          tankType cid with
      | .ok e => .ok (applyEffect today.toDaysZ st e)
      | .err => .err
      | .hang => .hang := by
  simp only [planFallback, fallbackEffect]
  cases getLastDeliveredYmd orders cid with
  | none => rfl
  | some last =>
    simp only
    cases parseYmdStr last with
    | none => rfl
    | some lx =>
      simp only
      cases phaseStep today.toDaysZ
          (cycleDaysFromTank tankType (some fallbackCycleDays))
          (lx.toDaysZ + cycleDaysFromTank tankType (some fallbackCycleDays))
          with
      | ok next =>
        simp only
        rw [cycleChain_eq]
        cases chainDates (today.toDaysZ + horizonDays)
            (cycleDaysFromTank tankType (some fallbackCycleDays)) next with
        | ok ds =>
          simp only [applyEffect]
          rw [toFinset_map_pair]
        | err => rfl
        | hang => rfl
      | err => rfl
      | hang => rfl

end Kerosene

namespace Kerosene

theorem fallbackEffect_shape (orders : List OrderRec) (today : Ymd)
    (horizonDays fallbackCycleDays : ℤ) (tankType : Option TankType)
    (cid : ℤ) (e : StepEffect)
    (hok : fallbackEffect orders today horizonDays fallbackCycleDays tankType
      cid = .ok e) :
    (e = StepEffect.purge cid ∧ getLastDeliveredYmd orders cid = none) ∨
      (∃ f, e = StepEffect.replaceFuture cid f ∧
        getLastDeliveredYmd orders cid ≠ none ∧
        ∀ d ∈ f, today.toDaysZ + 1 ≤ d) := by
  simp only [fallbackEffect] at hok
  cases hlast : getLastDeliveredYmd orders cid with
  | none =>
    rw [hlast] at hok
    cases hok
    exact Or.inl ⟨rfl, rfl⟩
  | some last =>
    rw [hlast] at hok
    simp only at hok
    cases hp : parseYmdStr last with
    | none =>
      rw [hp] at hok
      exact (JsOutcome.noConfusion hok)
    | some lx =>
      rw [hp] at hok
      simp only at hok
      cases hps : phaseStep today.toDaysZ
          (cycleDaysFromTank tankType (some fallbackCycleDays))
          (lx.toDaysZ + cycleDaysFromTank tankType (some fallbackCycleDays))
          with
      | ok next =>
        rw [hps] at hok
        simp only at hok
        cases hcd : chainDates (today.toDaysZ + horizonDays)
            (cycleDaysFromTank tankType (some fallbackCycleDays)) next with
        | ok ds =>
          rw [hcd] at hok
          cases hok
          refine Or.inr ⟨ds.toFinset, rfl, by simp [hlast], ?_⟩
          intro d hd
          have h1 := chainDates_mem_ge _ _ _ _ hcd d (List.mem_toFinset.mp hd)
          have h2 := phaseStep_ok_gt _ _ _ _ hps
          omega
        | err =>
          rw [hcd] at hok
          exact (JsOutcome.noConfusion hok)
        | hang =>
          rw [hcd] at hok
          exact (JsOutcome.noConfusion hok)
      | err =>
        rw [hps] at hok
        exact (JsOutcome.noConfusion hok)
      | hang =>
        rw [hps] at hok
        exact (JsOutcome.noConfusion hok)

theorem applyEffect_predeleted (todayDn : ℤ) (st : PlanStore) (cid : ℤ)
    (e : StepEffect)
    (hshape : e = StepEffect.purge cid ∨ ∃ f, e = StepEffect.replaceFuture cid f) :
    applyEffect todayDn (deleteFuturePlansForCustomer st cid todayDn) e =
      applyEffect todayDn st e := by
  rcases hshape with h | ⟨f, h⟩
  · subst h
    exact deleteAll_deleteFuture st cid todayDn
  · subst h
    simp only [applyEffect]
    rw [deleteFuture_idem]

theorem planStep_eq (orders : List OrderRec) (today : Ymd)
    (horizonDays fallbackCycleDays maxYearsBack : ℤ) (st : PlanStore)
    (c : Customer) :
    planStep orders today horizonDays fallbackCycleDays maxYearsBack st c =
      match stepEffect orders today horizonDays fallbackCycleDays maxYearsBack
          c with
      | .ok e => .ok (applyEffect today.toDaysZ st e)
      | .err => .err
      | .hang => .hang := by
  simp only [planStep, stepEffect]
  cases c.id with
  | none => rfl
  | some cid =>
    simp only
    split
    · cases hbp : buildPlanFromHistory
          (getHistoryDatesForCustomer orders cid ((today.y : ℤ) - 1)
            maxYearsBack)
          ((today.y : ℤ) - 1) (some (renderYmd today)) horizonDays with
      | ok r =>
        simp only [upsertFold, applyEffect, toFinset_map_pair]
      | err =>
        simp only
        rw [planFallback_eq]
        cases hfe : fallbackEffect orders today horizonDays fallbackCycleDays
            c.tankType cid with
        | ok e =>
          simp only
          rw [applyEffect_predeleted]
          rcases fallbackEffect_shape orders today horizonDays
              fallbackCycleDays c.tankType cid e hfe with ⟨h, -⟩ | ⟨f, h, -, -⟩
          · exact Or.inl h
          · exact Or.inr ⟨f, h⟩
        | err => rfl
        | hang => rfl
      | hang => rfl
    · exact planFallback_eq orders today horizonDays fallbackCycleDays
        c.tankType cid st

end Kerosene

namespace Kerosene

/-- Store-free effects of the whole customer loop. -/
def effectsOf (orders : List OrderRec) (today : Ymd)
    (horizonDays fallbackCycleDays maxYearsBack : ℤ) :
    List Customer → JsOutcome (List StepEffect)
  | [] => .ok []
  | c :: cs =>
    match stepEffect orders today horizonDays fallbackCycleDays maxYearsBack
        c with
    | .ok e =>
      match effectsOf orders today horizonDays fallbackCycleDays maxYearsBack
          cs with
      | .ok es => .ok (e :: es)
      | .err => .err
      | .hang => .hang
    | .err => .err
    | .hang => .hang

theorem foldl_step_err (orders : List OrderRec) (today : Ymd)
    (horizonDays fallbackCycleDays maxYearsBack : ℤ) (cs : List Customer) :
    (cs.foldl
      (fun acc c =>
        match acc with
        | .ok st => planStep orders today horizonDays fallbackCycleDays
            maxYearsBack st c
        | e => e)
      JsOutcome.err) = JsOutcome.err := by
  induction cs with
  | nil => rfl
  | cons c cs ih => exact ih

theorem foldl_step_hang (orders : List OrderRec) (today : Ymd)
    (horizonDays fallbackCycleDays maxYearsBack : ℤ) (cs : List Customer) :
    (cs.foldl
      (fun acc c =>
        match acc with
        | .ok st => planStep orders today horizonDays fallbackCycleDays
            maxYearsBack st c
        | e => e)
      JsOutcome.hang) = JsOutcome.hang := by
  induction cs with
  | nil => rfl
  | cons c cs ih => exact ih

theorem reconcile_eq (orders : List OrderRec) (today : Ymd)
    (horizonDays fallbackCycleDays maxYearsBack : ℤ) :
    ∀ (customers : List Customer) (store : PlanStore),
      buildMonthlyPlanByThreshold customers orders today horizonDays
        fallbackCycleDays maxYearsBack store =
      match effectsOf orders today horizonDays fallbackCycleDays maxYearsBack
          customers with
      | .ok es => .ok (es.foldl (applyEffect today.toDaysZ) store)
      | .err => .err
      | .hang => .hang := by
  intro customers
  induction customers with
  | nil =>
    intro store
    rfl
  | cons c cs ih =>
    intro store
    simp only [buildMonthlyPlanByThreshold, List.foldl_cons, effectsOf]
    rw [planStep_eq]
    cases stepEffect orders today horizonDays fallbackCycleDays maxYearsBack
        c with
    | ok e =>
      simp only
      have := ih (applyEffect today.toDaysZ store e)
      simp only [buildMonthlyPlanByThreshold] at this
      rw [this]
      cases effectsOf orders today horizonDays fallbackCycleDays maxYearsBack
          cs with
      | ok es => rfl
      | err => rfl
      | hang => rfl
    | err =>
      simp only
      exact foldl_step_err orders today horizonDays fallbackCycleDays
        maxYearsBack cs
    | hang =>
      simp only
      exact foldl_step_hang orders today horizonDays fallbackCycleDays
        maxYearsBack cs

/-- Membership in a store after a list of effects, as a function of
membership before. -/
def memFold (todayDn : ℤ) (p : ℤ × ℤ) : List StepEffect → Prop → Prop
  | [], base => base
  | e :: es, base =>
    memFold todayDn p es
      ((base ∧ ¬ effectRemoves todayDn e p) ∨ effectAdds e p)

theorem memFold_congr (todayDn : ℤ) (p : ℤ × ℤ) :
    ∀ (es : List StepEffect) (b b2 : Prop), (b ↔ b2) →
      (memFold todayDn p es b ↔ memFold todayDn p es b2) := by
  intro es
  induction es with
  | nil =>
    intro b b2 h
    exact h
  | cons e es ih =>
    intro b b2 h
    simp only [memFold]
    exact ih _ _ (by tauto)

theorem mem_foldl_applyEffect (todayDn : ℤ) (p : ℤ × ℤ) :
    ∀ (es : List StepEffect) (st : PlanStore),
      (p ∈ es.foldl (applyEffect todayDn) st ↔
        memFold todayDn p es (p ∈ st)) := by
  intro es
  induction es with
  | nil =>
    intro st
    exact Iff.rfl
  | cons e es ih =>
    intro st
    simp only [List.foldl_cons, memFold]
    rw [ih (applyEffect todayDn st e)]
    exact memFold_congr todayDn p es _ _ (mem_applyEffect todayDn st e p)

theorem memFold_transparent (todayDn : ℤ) (p : ℤ × ℤ) :
    ∀ (es : List StepEffect) (b : Prop),
      (∀ e ∈ es, ¬ effectRemoves todayDn e p ∧ ¬ effectAdds e p) →
      (memFold todayDn p es b ↔ b) := by
  intro es
  induction es with
  | nil =>
    intro b _
    exact Iff.rfl
  | cons e es ih =>
    intro b h
    simp only [memFold]
    have he := h e (List.mem_cons_self e es)
    have hrest : ∀ e2 ∈ es, ¬ effectRemoves todayDn e2 p ∧ ¬ effectAdds e2 p :=
      fun e2 h2 => h e2 (List.mem_cons_of_mem e h2)
    rw [ih _ hrest]
    tauto

theorem memFold_determined (todayDn : ℤ) (p : ℤ × ℤ) :
    ∀ (es : List StepEffect),
      (∃ e ∈ es, effectRemoves todayDn e p ∨ effectAdds e p) →
      ∀ (b b2 : Prop), (memFold todayDn p es b ↔ memFold todayDn p es b2) := by
  intro es
  induction es with
  | nil =>
    rintro ⟨e, he, -⟩
    simp at he
  | cons e es ih =>
    rintro ⟨e2, he2, hne2⟩ b b2
    simp only [memFold]
    by_cases hhead : effectRemoves todayDn e p ∨ effectAdds e p
    · refine memFold_congr todayDn p es _ _ ?_
      rcases hhead with h | h
      · constructor
        · rintro (⟨-, hcon⟩ | ha)
          · exact absurd h hcon
          · exact Or.inr ha
        · rintro (⟨-, hcon⟩ | ha)
          · exact absurd h hcon
          · exact Or.inr ha
      · exact ⟨fun _ => Or.inr h, fun _ => Or.inr h⟩
    · have htail : ∃ e3 ∈ es, effectRemoves todayDn e3 p ∨ effectAdds e3 p := by
        rcases List.mem_cons.mp he2 with hh | ht
        · rw [hh] at hne2
          exact absurd hne2 hhead
        · exact ⟨e2, ht, hne2⟩
      exact ih htail _ _

theorem memFold_idem (todayDn : ℤ) (p : ℤ × ℤ) (es : List StepEffect)
    (b : Prop) :
    (memFold todayDn p es (memFold todayDn p es b) ↔
      memFold todayDn p es b) := by
  by_cases h : ∃ e ∈ es, effectRemoves todayDn e p ∨ effectAdds e p
  · exact memFold_determined todayDn p es h _ _
  · push_neg at h
    have htrans : ∀ e ∈ es, ¬ effectRemoves todayDn e p ∧ ¬ effectAdds e p :=
      fun e he => (h e he).imp id id
    exact memFold_transparent todayDn p es _ htrans

end Kerosene

namespace Kerosene

/-- C6: reconciliation is idempotent — a second run with the same customers,
orders, date and options leaves the plan store unchanged. -/
theorem claim_C6_reconcileIdempotent (customers : List Customer)
    (orders : List OrderRec) (today : Ymd)
    (horizonDays fallbackCycleDays maxYearsBack : ℤ) (store S1 : PlanStore)
    (h1 : buildMonthlyPlanByThreshold customers orders today horizonDays
      fallbackCycleDays maxYearsBack store = .ok S1) :
    buildMonthlyPlanByThreshold customers orders today horizonDays
      fallbackCycleDays maxYearsBack S1 = .ok S1 := by
  rw [reconcile_eq] at h1 ⊢
  cases hes : effectsOf orders today horizonDays fallbackCycleDays
      maxYearsBack customers with
  | ok es =>
    rw [hes] at h1
    simp only at h1
    have hS : es.foldl (applyEffect today.toDaysZ) store = S1 := by
      cases h1
      rfl
    simp only
    rw [← hS]
    congr 1
    ext p
    rw [mem_foldl_applyEffect, mem_foldl_applyEffect]
    exact memFold_idem today.toDaysZ p es (p ∈ store)
  | err =>
    rw [hes] at h1
    exact (JsOutcome.noConfusion h1)
  | hang =>
    rw [hes] at h1
    exact (JsOutcome.noConfusion h1)

theorem hist_fold_mem (P : OrderRec → Prop) [DecidablePred P] :
    ∀ (l : List OrderRec) (acc : List Str) (x : Str),
      (x ∈ l.foldl (fun acc o => if P o then acc ++ [o.date] else acc) acc ↔
        x ∈ acc ∨ ∃ o ∈ l, P o ∧ o.date = x) := by
  intro l
  induction l with
  | nil =>
    intro acc x
    simp
  | cons o l ih =>
    intro acc x
    simp only [List.foldl_cons, List.exists_mem_cons_iff]
    by_cases hP : P o
    · rw [if_pos hP, ih]
      simp only [List.mem_append, List.mem_singleton]
      constructor
      · rintro ((h | h) | h)
        · exact Or.inl h
        · exact Or.inr (Or.inl ⟨hP, h.symm⟩)
        · exact Or.inr (Or.inr h)
      · rintro (h | (⟨-, h⟩ | h))
        · exact Or.inl (Or.inl h)
        · exact Or.inl (Or.inr h.symm)
        · exact Or.inr h
    · rw [if_neg hP, ih]
      constructor
      · rintro (h | h)
        · exact Or.inl h
        · exact Or.inr (Or.inr h)
      · rintro (h | (⟨hcon, -⟩ | h))
        · exact Or.inl h
        · exact absurd hcon hP
        · exact Or.inr h

theorem getLast_fold_ne_none :
    ∀ (l : List OrderRec) (acc : Option Str),
      (acc ≠ none ∨ ∃ o ∈ l, isoTest o.date = true) →
      l.foldl
        (fun last o =>
          if isoTest o.date then
            match last with
            | some l2 => some (maxYmdStr l2 o.date)
            | none => some o.date
          else last)
        acc ≠ none := by
  intro l
  induction l with
  | nil =>
    rintro acc (h | h)
    · exact h
    · simp at h
  | cons o l ih =>
    rintro acc h
    simp only [List.foldl_cons]
    by_cases hiso : isoTest o.date
    · rw [if_pos hiso]
      apply ih
      left
      cases acc with
      | some l2 => simp
      | none => simp
    · rw [if_neg hiso]
      apply ih
      rcases h with h | ⟨o2, ho2, hval⟩
      · exact Or.inl h
      · rcases List.mem_cons.mp ho2 with hh | ht
        · rw [hh] at hval
          exact absurd hval hiso
        · exact Or.inr ⟨o2, ht, hval⟩

theorem basePresent_last_ne_none (orders : List OrderRec)
    (cid baseYear maxYearsBack : ℤ)
    (h : 0 < ((getHistoryDatesForCustomer orders cid baseYear
      maxYearsBack).filter fun d =>
        decide (d.take 4 = intToChars baseYear)).length) :
    getLastDeliveredYmd orders cid ≠ none := by
  rw [List.length_pos] at h
  obtain ⟨d, hd⟩ := List.exists_mem_of_ne_nil _ h
  have hd2 : d ∈ getHistoryDatesForCustomer orders cid baseYear maxYearsBack :=
    List.mem_of_mem_filter hd
  simp only [getHistoryDatesForCustomer] at hd2
  rw [(List.perm_insertionSort strLeP _).mem_iff] at hd2
  rw [hist_fold_mem] at hd2
  rcases hd2 with hcon | ⟨o, ho, hP, hdate⟩
  · simp at hcon
  · apply getLast_fold_ne_none
    right
    refine ⟨o, ho, ?_⟩
    have := hP.1
    simpa using this

end Kerosene

namespace Kerosene

theorem stepEffect_shape (orders : List OrderRec) (today : Ymd)
    (horizonDays fallbackCycleDays maxYearsBack : ℤ) (c : Customer)
    (e : StepEffect)
    (hok : stepEffect orders today horizonDays fallbackCycleDays maxYearsBack
      c = .ok e) :
    (e = StepEffect.skip ∧ c.id = none) ∨
      (∃ cid, c.id = some cid ∧ e = StepEffect.purge cid ∧
        getLastDeliveredYmd orders cid = none) ∨
      (∃ cid f, c.id = some cid ∧ e = StepEffect.replaceFuture cid f ∧
        getLastDeliveredYmd orders cid ≠ none ∧
        ∀ d ∈ f, today.toDaysZ ≤ d) := by
  simp only [stepEffect] at hok
  cases hid : c.id with
  | none =>
    rw [hid] at hok
    cases hok
    exact Or.inl ⟨rfl, rfl⟩
  | some cid =>
    rw [hid] at hok
    simp only at hok
    split at hok
    · rename_i hbase
      cases hbp : buildPlanFromHistory
          (getHistoryDatesForCustomer orders cid ((today.y : ℤ) - 1)
            maxYearsBack)
          ((today.y : ℤ) - 1) (some (renderYmd today)) horizonDays with
      | ok r =>
        rw [hbp] at hok
        cases hok
        refine Or.inr (Or.inr ⟨cid, _, rfl, rfl, ?_, ?_⟩)
        · exact basePresent_last_ne_none orders cid ((today.y : ℤ) - 1)
            maxYearsBack hbase
        · intro d hd
          rw [List.mem_toFinset, List.mem_filter] at hd
          have := hd.2
          simp only [decide_eq_true_eq] at this
          omega
      | err =>
        rw [hbp] at hok
        rcases fallbackEffect_shape orders today horizonDays fallbackCycleDays
            c.tankType cid e hok with ⟨h1, h2⟩ | ⟨f, h1, h2, h3⟩
        · exact Or.inr (Or.inl ⟨cid, rfl, h1, h2⟩)
        · exact Or.inr (Or.inr ⟨cid, f, rfl, h1, h2,
            fun d hd => by have := h3 d hd; omega⟩)
      | hang =>
        rw [hbp] at hok
        exact (JsOutcome.noConfusion hok)
    · rcases fallbackEffect_shape orders today horizonDays fallbackCycleDays
          c.tankType cid e hok with ⟨h1, h2⟩ | ⟨f, h1, h2, h3⟩
      · exact Or.inr (Or.inl ⟨cid, rfl, h1, h2⟩)
      · exact Or.inr (Or.inr ⟨cid, f, rfl, h1, h2,
          fun d hd => by have := h3 d hd; omega⟩)

/-- C1 (amended): a run that completes never creates or modifies a plan
entry dated before `today`, and deletes such an entry exactly when its
customer appears in the run with no format-valid delivery record at all
(the NEW-customer cleanup `deleteAllPlansForCustomer`). -/
theorem claim_C1_pastPlansFrame (customers : List Customer)
    (orders : List OrderRec) (today : Ymd)
    (horizonDays fallbackCycleDays maxYearsBack : ℤ) :
    ∀ (store S1 : PlanStore),
      buildMonthlyPlanByThreshold customers orders today horizonDays
        fallbackCycleDays maxYearsBack store = .ok S1 →
      ∀ p : ℤ × ℤ, p.1 < today.toDaysZ →
        (p ∈ S1 ↔ (p ∈ store ∧
          ¬ ∃ c ∈ customers, c.id = some p.2 ∧
            getLastDeliveredYmd orders p.2 = none)) := by
  induction customers with
  | nil =>
    intro store S1 h1 p hpast
    have hS : store = S1 := by
      cases h1
      rfl
    subst hS
    simp
  | cons c cs ih =>
    intro store S1 h1 p hpast
    simp only [buildMonthlyPlanByThreshold, List.foldl_cons] at h1
    rw [planStep_eq] at h1
    cases hse : stepEffect orders today horizonDays fallbackCycleDays
        maxYearsBack c with
    | ok e =>
      rw [hse] at h1
      simp only at h1
      have h2 : buildMonthlyPlanByThreshold cs orders today horizonDays
          fallbackCycleDays maxYearsBack (applyEffect today.toDaysZ store e) =
          .ok S1 := h1
      have hIH := ih (applyEffect today.toDaysZ store e) S1 h2 p hpast
      rw [hIH, List.exists_mem_cons_iff]
      rcases stepEffect_shape orders today horizonDays fallbackCycleDays
          maxYearsBack c e hse with ⟨he, hid⟩ | ⟨cid, hid, he, hlast⟩ |
          ⟨cid, f, hid, he, hlast, hf⟩
      · subst he
        simp only [applyEffect, hid]
        constructor
        · rintro ⟨hmem, hno⟩
          exact ⟨hmem, fun hcon => by
            rcases hcon with ⟨hcon, -⟩ | hcon
            · exact (Option.noConfusion hcon)
            · exact hno hcon⟩
        · rintro ⟨hmem, hno⟩
          exact ⟨hmem, fun hcon => hno (Or.inr hcon)⟩
      · subst he
        simp only [applyEffect, deleteAllPlansForCustomer, Finset.mem_filter,
          hid]
        constructor
        · rintro ⟨⟨hmem, hne⟩, hno⟩
          refine ⟨hmem, fun hcon => ?_⟩
          rcases hcon with ⟨hcon, -⟩ | hcon
          · exact hne (Option.some.inj hcon).symm
          · exact hno hcon
        · rintro ⟨hmem, hno⟩
          refine ⟨⟨hmem, fun hcon => ?_⟩, fun hcon => hno (Or.inr hcon)⟩
          exact hno (Or.inl ⟨by rw [hcon], by rw [hcon]; exact hlast⟩)
      · subst he
        have hmem2 : p ∈ applyEffect today.toDaysZ store
            (StepEffect.replaceFuture cid f) ↔ p ∈ store := by
          simp only [applyEffect, Finset.mem_union,
            deleteFuturePlansForCustomer, Finset.mem_filter, Finset.mem_image]
          constructor
          · rintro (⟨hmem, -⟩ | ⟨d, hd, hdp⟩)
            · exact hmem
            · exfalso
              have := hf d hd
              have : p.1 = d := by rw [← hdp]
              omega
          · intro hmem
            exact Or.inl ⟨hmem, fun hcon => by omega⟩
        rw [hmem2]
        constructor
        · rintro ⟨hmem, hno⟩
          refine ⟨hmem, fun hcon => ?_⟩
          rcases hcon with ⟨hcon1, hcon2⟩ | hcon
          · rw [hid] at hcon1
            rw [← Option.some.inj hcon1] at hcon2
            exact hlast hcon2
          · exact hno hcon
        · rintro ⟨hmem, hno⟩
          exact ⟨hmem, fun hcon => hno (Or.inr hcon)⟩
    | err =>
      rw [hse] at h1
      simp only at h1
      rw [foldl_step_err] at h1
      exact (JsOutcome.noConfusion h1)
    | hang =>
      rw [hse] at h1
      simp only at h1
      rw [foldl_step_hang] at h1
      exact (JsOutcome.noConfusion h1)

end Kerosene

namespace Kerosene

/-- A customer with an id but no delivery record in the scenario below. -/
def cNew : Customer := ⟨some 1, none⟩

/-- The run date of the concrete reconciliation scenarios, 2025-06-01. -/
def todayEx : Ymd := ⟨2025, 6, 1⟩

/-- A plan entry of customer 1 dated 2024-01-05, before `todayEx`. -/
def pPast : ℤ × ℤ := (Ymd.toDaysZ ⟨2024, 1, 5⟩, 1)

set_option maxRecDepth 10000 in
/-- C1 counterexample: a reconciliation run deletes the past plan entry
2024-01-05 of customer 1, because the customer has no delivery record and
the NEW-customer branch calls `deleteAllPlansForCustomer` — past entries of
such customers are not inert. -/
theorem claim_C1_pastPlansFrame_counterexample :
    buildMonthlyPlanByThreshold [cNew] [] todayEx 370 42 3 {pPast} =
      .ok (∅ : PlanStore) ∧
    pPast.1 < todayEx.toDaysZ ∧
    pPast ∈ ({pPast} : PlanStore) ∧
    pPast ∉ (∅ : PlanStore) := by
  refine ⟨by decide, by decide, by decide, by decide⟩

set_option maxRecDepth 10000 in
/-- Witness for the amended C1 at the concrete scenario above: the run
completes with the empty store, and the membership characterization holds
for the past entry. -/
theorem claim_C1_pastPlansFrame_witness :
    pPast ∈ (∅ : PlanStore) ↔
      (pPast ∈ ({pPast} : PlanStore) ∧
        ¬ ∃ c ∈ [cNew], c.id = some pPast.2 ∧
          getLastDeliveredYmd [] pPast.2 = none) :=
  claim_C1_pastPlansFrame [cNew] [] todayEx 370 42 3 {pPast} ∅ (by decide)
    pPast (by decide)

set_option maxRecDepth 10000 in
/-- Witness for C6 at the concrete scenario above: rerunning on the store
produced by the first run returns it unchanged. -/
theorem claim_C6_reconcileIdempotent_witness :
    buildMonthlyPlanByThreshold [cNew] [] todayEx 370 42 3 (∅ : PlanStore) =
      .ok (∅ : PlanStore) :=
  claim_C6_reconcileIdempotent [cNew] [] todayEx 370 42 3 {pPast} ∅
    (by decide)

end Kerosene
